import Mathlib

/-!
Verification of the ucndata core (time-windowed hierarchical access to
cyclic instrument telemetry).  The definitions below are shallow embeddings
of the Python source under `src/ucndata/`: times are modelled as `Int`
(epoch seconds), pandas tables as lists, and fallible operations as
`Option`/`Except`-style sum types.  Each claim of the specification is then
settled as a theorem about these definitions.
-/

namespace Ucndata

/-! ## Time-windowed table view (`tsubfile.py`) -/

/-- A named table: an optional index name (pandas `index.name`, which may be
absent) and its rows, each row carrying its time-index value and a payload. -/
structure Table where
  indexName : Option String
  rows : List (Int × Int)
deriving DecidableEq

/-- Substring test on character lists: does `hay` contain `needle`?
Models Python's `in` operator on strings. -/
def containsSub (needle hay : List Char) : Bool :=
  hay.tails.any (fun t => needle.isPrefixOf t)

/-- Models `'time' in val.index.name.lower()` from `tsubfile.__getitem__`;
a missing index name raises `AttributeError`, which the source catches and
treats as "not time indexed". -/
def hasTimeIndex (t : Table) : Bool :=
  match t.indexName with
  | none => false
  | some s => containsSub "time".toList s.toLower.toList

/-- The `tsubfile` wrapper: a window `[start, stop]` over a keyed set of
tables (the wrapped `tfile` contents). -/
structure Tsubfile where
  start : Int
  stop : Int
  tables : List (String × Table)
deriving DecidableEq

/-- Result of `tsubfile.__getitem__`: either one of the two reserved static
values (`_start`/`_stop`) or a table. -/
inductive Entry where
  | timeval (t : Int)
  | table (tb : Table)
deriving DecidableEq

/-- Row restriction from `tsubfile.__getitem__`: a time-indexed table keeps
exactly the rows with `start <= t <= stop` (inclusive on both ends); any
other table is returned unfiltered. -/
def Tsubfile.restrict (f : Tsubfile) (tb : Table) : Table :=
  if hasTimeIndex tb then
    { tb with rows := tb.rows.filter (fun r => f.start ≤ r.1 && r.1 ≤ f.stop) }
  else tb

/-- `tsubfile.__getitem__`: the reserved keys `_start` and `_stop` are
returned verbatim from `self._items`; otherwise the underlying table is
fetched and restricted to the window.  A missing key (`KeyError` in the
source) is `none`. -/
def Tsubfile.getitem (f : Tsubfile) (key : String) : Option Entry :=
  if key = "_start" then some (.timeval f.start)
  else if key = "_stop" then some (.timeval f.stop)
  else (f.tables.lookup key).map (fun tb => .table (f.restrict tb))

/-! ## Cycle access, iteration and the cycle filter (`ucnrun.py`) -/

/-- A cached cycle view (`ucncycle`), reduced to the fields the claims are
about: its cycle index, a construction stamp distinguishing separately
constructed objects (object identity), and its own scalar
`cycle_param.filter` entry (set from the run's filter at construction). -/
structure CycleObj where
  cycle : Nat
  stamp : Nat
  cfilter : Option Bool
deriving DecidableEq

/-- The per-run state used by `__getitem__` / `__next__` / `get_cycle` /
`set_cycle_filter`: the cycle count `cycle_param.ncycles`, the optional
boolean filter `cycle_param.filter`, the memo dictionary `_cycledict`
(association list keyed by cycle index) and a construction counter used to
stamp fresh `ucncycle` objects. -/
structure RunState where
  ncycles : Nat
  cfilter : Option (List Bool)
  cycledict : List (Nat × CycleObj)
  counter : Nat
deriving DecidableEq

/-- Construction of a fresh `ucncycle` view: it records the cycle index and,
when the run's filter is set, its own scalar filter entry
(`self.cycle_param.filter = self.cycle_param.filter[cycle]`). -/
def mkCycleObj (r : RunState) (c : Nat) : CycleObj :=
  { cycle := c, stamp := r.counter,
    cfilter := r.cfilter.map (fun f => f.getD c false) }

/-- `ucnrun.get_cycle` for a nonnegative index: return the memoized object
if present, else construct and memoize.  Construction reads
`cycle_times.loc[cycle, 'start']`, which raises a `KeyError` when the cycle
index is not a row of the boundary table (modelled by `.error ()`). -/
def getCycleOne (r : RunState) (c : Nat) : Except Unit (CycleObj × RunState) :=
  match r.cycledict.lookup c with
  | some cyc => .ok (cyc, r)
  | none =>
    if c < r.ncycles then
      let cyc := mkCycleObj r c
      .ok (cyc, { r with cycledict := (c, cyc) :: r.cycledict,
                         counter := r.counter + 1 })
    else .error ()

/-- `map(self.get_cycle, i for i in indices)` materialized left to right,
threading the memo state; the first failure propagates. -/
def getCycleList : RunState → List Nat → Except Unit (List CycleObj × RunState)
  | r, [] => .ok ([], r)
  | r, i :: rest =>
    match getCycleOne r i with
    | .ok (cyc, r1) =>
      match getCycleList r1 rest with
      | .ok (objs, r') => .ok (cyc :: objs, r')
      | .error e => .error e
    | .error e => .error e

/-- The `cycle is None or cycle < 0` branch of `get_cycle`:
`applylist(map(self.get_cycle, range(ncycles)))`. -/
def getCycleAll (r : RunState) : Except Unit (List CycleObj × RunState) :=
  getCycleList r (List.range r.ncycles)

/-- Result of `get_cycle`: a single cycle view or the list of all of them. -/
inductive CycleRes where
  | one (cyc : CycleObj)
  | all (cycs : List CycleObj)
deriving DecidableEq

/-- `ucnrun.get_cycle(cycle)`: `None` or any negative index yields the full
list of cycles; a nonnegative index yields the memoized single cycle. -/
def get_cycle (r : RunState) (c : Option Int) : Except Unit (CycleRes × RunState) :=
  match c with
  | none => (getCycleAll r).map (fun p => (.all p.1, p.2))
  | some k =>
    if k < 0 then (getCycleAll r).map (fun p => (.all p.1, p.2))
    else (getCycleOne r k.toNat).map (fun p => (.one p.1, p.2))

/-- Errors reachable from integer indexing: the `IndexError` raised by
`__getitem__` (whose message quotes the available count) and the pandas
`KeyError` escaping from view construction. -/
inductive GetErr where
  | indexError (count : Nat)
  | keyError
deriving DecidableEq

/-- The integer branch of `ucnrun.__getitem__`: a negative key is shifted by
`ncycles`; a key strictly greater than `ncycles` raises `IndexError`; any
other key is handed to `get_cycle` (where a still-negative key returns all
cycles and `key == ncycles` dies with a `KeyError`). -/
def ucnrun_getitem_int (r : RunState) (i : Int) :
    Except GetErr (CycleRes × RunState) :=
  let key : Int := if i < 0 then (r.ncycles : Int) + i else i
  if key > (r.ncycles : Int) then .error (.indexError r.ncycles)
  else
    match get_cycle r (some key) with
    | .ok p => .ok p
    | .error _ => .error .keyError

/-- The skip loop of `ucnrun.__next__`: starting at index `cur`, advance
while the filter entry is false; running past the last index raises
`StopIteration` (`none`).  `gas` is the remaining distance to `ncycles`. -/
def findUnfiltered (f : List Bool) : Nat → Nat → Option Nat
  | _, 0 => none
  | cur, gas + 1 => if f.getD cur true then some cur else findUnfiltered f (cur + 1) gas

/-- One step of `ucnrun.__next__`: from iterator position `cur`, the yielded
cycle index and the next position, or `none` for `StopIteration`. -/
def runNext (r : RunState) (cur : Nat) : Option (Nat × Nat) :=
  if cur < r.ncycles then
    match r.cfilter with
    | none => some (cur, cur + 1)
    | some f =>
      match findUnfiltered f cur (r.ncycles - cur) with
      | some i => some (i, i + 1)
      | none => none
  else none

/-- Repeatedly invoke `runNext`, collecting the yielded cycle indices. -/
def iterFuel : Nat → RunState → Nat → List Nat
  | 0, _, _ => []
  | fuel + 1, r, cur =>
    match runNext r cur with
    | some (c, cur') => c :: iterFuel fuel r cur'
    | none => []

/-- `list(run)`: iterate from position 0 (`__iter__` resets the cursor). -/
def iterRun (r : RunState) : List Nat := iterFuel (r.ncycles + 1) r 0

/-- The slice branch of `ucnrun.__getitem__` for the full slice `run[:]`
(cycle indices): `cycles = get_cycle()[:ncycles]`, returned unfiltered when
no filter is set or the filter is all-true, else selected by the boolean
mask (`np.array(cycles[key])[cfilter]`). -/
def ucnrun_getitem_sliceAll (r : RunState) : List Nat :=
  match r.cfilter with
  | none => List.range r.ncycles
  | some f =>
    if f.all (fun b => b) then List.range r.ncycles
    else (((List.range r.ncycles).zip f).filter (fun p => p.2)).map (fun p => p.1)

/-- `ucnrun.set_cycle_filter`: rejects a mask whose length differs from
`ncycles` (`RuntimeError`), else stores it and re-points the scalar filter
entry of every already-memoized cycle view at its own mask value. -/
def set_cycle_filter (r : RunState) (mask : List Bool) : Except Unit RunState :=
  if mask.length ≠ r.ncycles then .error ()
  else .ok { r with
    cfilter := some mask,
    cycledict := r.cycledict.map
      (fun p => (p.1, { p.2 with cfilter := some (mask.getD p.1 false) })) }

/-- Well-formedness of the memo dictionary: every cached entry is keyed by
its own cycle index and indexes an existing cycle.  Every dictionary the
source builds satisfies this (`get_cycle` stores `ucncycle(self, cycle)`
under `cycle`). -/
def WFRunState (r : RunState) : Prop :=
  ∀ p ∈ r.cycledict, p.2.cycle = p.1 ∧ p.1 < r.ncycles

instance (r : RunState) : Decidable (WFRunState r) :=
  inferInstanceAs (Decidable (∀ p ∈ r.cycledict, p.2.cycle = p.1 ∧ p.1 < r.ncycles))

/-! ## Period access from a cycle (`ucncycle.py`, `ucnperiod.py`).
The integer branch of `ucncycle.__getitem__` is the same code as the run
version with `nperiods`/`get_period` in place of `ncycles`/`get_cycle`, and
`ucnperiod.__init__` reads `period_end_times[period]`, again a `KeyError`
for a missing period label. -/

/-- A cached period view (`ucnperiod`), reduced to its period index. -/
structure PeriodObj where
  period : Nat
  stamp : Nat
deriving DecidableEq

/-- The per-cycle state used by `ucncycle.__getitem__` / `get_period`. -/
structure CycState where
  nperiods : Nat
  perioddict : List (Nat × PeriodObj)
  counter : Nat
deriving DecidableEq

/-- `ucncycle.get_period` for a nonnegative index (memoized construction;
`ucnperiod.__init__` raises `KeyError` past the last period). -/
def getPeriodOne (cy : CycState) (p : Nat) : Except Unit (PeriodObj × CycState) :=
  match cy.perioddict.lookup p with
  | some per => .ok (per, cy)
  | none =>
    if p < cy.nperiods then
      let per : PeriodObj := { period := p, stamp := cy.counter }
      .ok (per, { cy with perioddict := (p, per) :: cy.perioddict,
                          counter := cy.counter + 1 })
    else .error ()

/-- `map(self.get_period, ...)` materialized left to right. -/
def getPeriodList : CycState → List Nat → Except Unit (List PeriodObj × CycState)
  | cy, [] => .ok ([], cy)
  | cy, i :: rest =>
    match getPeriodOne cy i with
    | .ok (per, cy1) =>
      match getPeriodList cy1 rest with
      | .ok (objs, cy') => .ok (per :: objs, cy')
      | .error e => .error e
    | .error e => .error e

/-- The `period is None or period < 0` branch of `get_period`. -/
def getPeriodAll (cy : CycState) : Except Unit (List PeriodObj × CycState) :=
  getPeriodList cy (List.range cy.nperiods)

/-- Result of `get_period`. -/
inductive PeriodRes where
  | one (per : PeriodObj)
  | all (pers : List PeriodObj)
deriving DecidableEq

/-- `ucncycle.get_period(period)`. -/
def get_period (cy : CycState) (p : Option Int) : Except Unit (PeriodRes × CycState) :=
  match p with
  | none => (getPeriodAll cy).map (fun q => (.all q.1, q.2))
  | some k =>
    if k < 0 then (getPeriodAll cy).map (fun q => (.all q.1, q.2))
    else (getPeriodOne cy k.toNat).map (fun q => (.one q.1, q.2))

/-- The integer branch of `ucncycle.__getitem__` (same shape as the run
version, bounds-checked against `nperiods`). -/
def ucncycle_getitem_int (cy : CycState) (i : Int) :
    Except GetErr (PeriodRes × CycState) :=
  let key : Int := if i < 0 then (cy.nperiods : Int) + i else i
  if key > (cy.nperiods : Int) then .error (.indexError cy.nperiods)
  else
    match get_period cy (some key) with
    | .ok p => .ok p
    | .error _ => .error .keyError

/-- Well-formedness of the period memo dictionary (as for `WFRunState`). -/
def WFCycState (cy : CycState) : Prop :=
  ∀ p ∈ cy.perioddict, p.2.period = p.1 ∧ p.1 < cy.nperiods

instance (cy : CycState) : Decidable (WFCycState cy) :=
  inferInstanceAs (Decidable (∀ p ∈ cy.perioddict, p.2.period = p.1 ∧ p.1 < cy.nperiods))

/-! ## Timing edits (`ucnrun._modify_ptiming`) -/

/-- The boundary-table state mutated by `_modify_ptiming`: per-cycle start,
stop and `duration (s)` columns of `cycle_times`, and the
`period_end_times` / `period_durations_s` frames, stored per cycle as the
list of that cycle's column (`pend[c][p] = period_end_times.loc[p, c]`). -/
structure CycParam where
  cstart : List Int
  cstop : List Int
  cdur : List Int
  pend : List (List Int)
  pdur : List (List Int)
deriving DecidableEq

/-- `period_end_times.loc[p, c]`. -/
def getPend (s : CycParam) (c p : Nat) : Int := (s.pend.getD c []).getD p 0

/-- Write `period_end_times.loc[p, c]`. -/
def setPend (s : CycParam) (c p : Nat) (v : Int) : CycParam :=
  { s with pend := s.pend.set c ((s.pend.getD c []).set p v) }

/-- `period_durations_s.loc[p, c]`; `none` models the `KeyError` raised by
a missing period label. -/
def getPdur (s : CycParam) (c p : Nat) : Option Int := (s.pdur.getD c []).get? p

/-- The `dt_start_s != 0` branch of `_modify_ptiming`: period 0 shifts the
cycle start, any later period shifts the previous period's end time, and the
call recurses onto the preceding period when that period's index is positive
(`period - 1 > 0`) and its current duration is zero. -/
def adjustStart (cycle : Nat) (dt : Int) : Nat → CycParam → CycParam
  | 0, s => { s with cstart := s.cstart.set cycle (s.cstart.getD cycle 0 + dt) }
  | p + 1, s =>
    let s1 := setPend s cycle p (getPend s cycle p + dt)
    if 0 < p ∧ getPdur s1 cycle p = some 0 then adjustStart cycle dt p s1 else s1

/-- The `dt_stop_s != 0` branch of `_modify_ptiming`: shift the period's end
time, clamp it to the cycle's stop, then recurse onto the following period
when its duration is zero (a missing following period is the caught
`KeyError`).  `fuel` only bounds the recursion; the wrapper passes enough
for the walk over the remaining periods. -/
def adjustStopAux (cycle : Nat) (dt : Int) : Nat → Nat → CycParam → CycParam
  | 0, _, s => s
  | fuel + 1, p, s =>
    let s1 := setPend s cycle p (getPend s cycle p + dt)
    let cycend := s1.cstop.getD cycle 0
    let perend := getPend s1 cycle p
    let s2 := setPend s1 cycle p (min perend cycend)
    match getPdur s2 cycle (p + 1) with
    | some d => if d = 0 then adjustStopAux cycle dt fuel (p + 1) s2 else s2
    | none => s2

/-- Wrapper for the stop-time branch with adequate fuel (the recursion
strictly increases the period index and stops past the last period). -/
def adjustStop (s : CycParam) (cycle p : Nat) (dt : Int) : CycParam :=
  adjustStopAux cycle dt ((s.pdur.getD cycle []).length + 1) p s

/-- One column of `df.diff()` with row 0 replaced by `df.loc[0] - start`:
successive differences of the period end times, period 0 against the cycle
start. -/
def diffRow (cstart : Int) (l : List Int) : List Int :=
  List.zipWith (fun a b => a - b) l (cstart :: l)

/-- The `update_duration` epilogue of `_modify_ptiming`: recompute
`period_durations_s` from `period_end_times`, and refresh the edited
cycle's `duration (s)` with `(stop - start).loc[0]` (the source reads row 0
of the difference, i.e. cycle 0's duration, whatever cycle was edited). -/
def updateDurations (s : CycParam) (cycle : Nat) : CycParam :=
  { s with
    pdur := List.zipWith (fun l st => diffRow st l) s.pend s.cstart,
    cdur := s.cdur.set cycle (s.cstop.getD 0 0 - s.cstart.getD 0 0) }

/-- `ucnrun._modify_ptiming(cycle, period, dt_start_s, dt_stop_s)` at the
top level (`update_duration=True`; the cache invalidation the source does
afterwards has no effect on the boundary table). -/
def modifyPtiming (s : CycParam) (cycle period : Nat) (dtStart dtStop : Int) :
    CycParam :=
  let s1 := if dtStart ≠ 0 then adjustStart cycle dtStart period s else s
  let s2 := if dtStop ≠ 0 then adjustStop s1 cycle period dtStop else s1
  updateDurations s2 cycle

/-- Adjacent non-decreasing test for one column of period end times. -/
def monoOk : List Int → Bool
  | [] => true
  | [_] => true
  | a :: b :: t => decide (a ≤ b) && monoOk (b :: t)

/-- Period end times are non-decreasing along the period axis within every
cycle (spec invariant I2, first half). -/
def pendMono (s : CycParam) : Prop :=
  ∀ l ∈ s.pend, monoOk l = true

instance (s : CycParam) : Decidable (pendMono s) :=
  inferInstanceAs (Decidable (∀ l ∈ s.pend, monoOk l = true))

/-- Every period end time is bounded by its cycle's stop time (spec
invariant I2, second half). -/
def pendBounded (s : CycParam) : Prop :=
  ∀ c < s.pend.length, ∀ e ∈ s.pend.getD c [], e ≤ s.cstop.getD c 0

instance (s : CycParam) : Decidable (pendBounded s) :=
  inferInstanceAs (Decidable (∀ c < s.pend.length, ∀ e ∈ s.pend.getD c [],
    e ≤ s.cstop.getD c 0))

/-- Each cycle's period durations sum to the cycle's `duration (s)` entry. -/
def pdurSumEqCdur (s : CycParam) : Prop :=
  ∀ c < s.pdur.length, (s.pdur.getD c []).sum = s.cdur.getD c 0

instance (s : CycParam) : Decidable (pdurSumEqCdur s) :=
  inferInstanceAs (Decidable (∀ c < s.pdur.length,
    (s.pdur.getD c []).sum = s.cdur.getD c 0))

/-- Lowest period-end index shifted by a start-time edit at period `p ≥ 1`:
the edit walks down through consecutive zero-duration periods, but only
while the preceding period's index is positive. -/
def chainLo (durs : List Int) : Nat → Nat
  | 0 => 0
  | 1 => 0
  | q + 2 => if durs.get? (q + 1) = some 0 then chainLo durs (q + 1) else q + 1

/-! ## Cycle boundary detection (`ucnrun.set_cycle_times`) -/

/-- Walk for `drop_duplicates`: emit a value the first time it is seen,
accumulating the already-emitted values in `seen`. -/
def dropDupAux : List Int → List Int → List Int
  | [], _ => []
  | x :: xs, seen =>
    if x ∈ seen then dropDupAux xs seen else x :: dropDupAux xs (x :: seen)

/-- `pd.Series.drop_duplicates`: keep the first occurrence of each value,
preserving order. -/
def dropDuplicates (l : List Int) : List Int := dropDupAux l []

/-- `itertools.product`: all pairs in nested-loop order. -/
def pairProduct (l1 l2 : List Int) : List (Int × Int) :=
  l1.flatMap (fun a => l2.map (fun b => (a, b)))

/-- `sorted(pairs, key=lambda t: abs(t[0] - t[1]))`: a stable sort by
absolute time difference (Python's sort is stable; so is insertion sort). -/
def sortByAbsDiff (pairs : List (Int × Int)) : List (Int × Int) :=
  List.insertionSort (fun p q => |p.1 - p.2| ≤ |q.1 - q.2|) pairs

/-- `np.sort` on a one-dimensional integer array. -/
def sortInts (l : List Int) : List Int := List.insertionSort (fun a b => a ≤ b) l

/-- The greedy pair-acceptance loop of matched detection: walk the pairs in
sorted order, accept a pair when neither timestamp is already claimed, and
raise `CycleError` when an accepted pair's offset exceeds 20 in magnitude. -/
def greedyMatch : List (Int × Int) → List Int → List Int →
    Except String (List Int × List Int)
  | [], mh, ml => .ok (mh, ml)
  | pair :: rest, mh, ml =>
    if pair.1 ∉ mh ∧ pair.2 ∉ ml then
      if 20 < |pair.1 - pair.2| then
        .error "CycleError: He3 cycle start time too distant from Li6 start"
      else greedyMatch rest (mh ++ [pair.1]) (ml ++ [pair.2])
    else greedyMatch rest mh ml

/-- The `matched` branch of `set_cycle_times`: deduplicate both timestamp
sets, sort all candidate pairs by absolute difference, match greedily, then
run the two unmatched-timestamp checks.  Both checks in the source test
membership in `matchedhe3` (the Li6 check never consults `matchedli6`). -/
def set_cycle_times_matched (he li : List Int) :
    Except String (List Int × List Int) :=
  let he := dropDuplicates he
  let li := dropDuplicates li
  let pairs := sortByAbsDiff (pairProduct he li)
  match greedyMatch pairs [] [] with
  | .error e => .error e
  | .ok (mh, ml) =>
    let mhs := sortInts mh
    let mls := sortInts ml
    if he.any (fun t => t ∉ mhs) then
      .error "CycleError: Found no match to He3 cycles"
    else if li.any (fun t => t ∉ mhs) then
      .error "CycleError: Found no match to Li6 cycles"
    else .ok (mhs, mls)

/-- The run end time used by single-source detection: the maximum observed
timestamp over the slow-control trees present in the file (`none` when no
tree contributes, the `MissingDataError` case). -/
def computeRunStop (trees : List (List Int)) : Option Int :=
  (trees.filterMap (fun t => t.max?)).max?

/-- The `li6` (equally `he3`) branch of `set_cycle_times`: deduplicated
transition timestamps become cycle starts, durations are the differences of
`np.concatenate((start, [run_stop]))`, stops are start plus duration, and
the final `duration (s)` column is recomputed as stop minus start.  Each
output row is `(start, stop, duration)`. -/
def set_cycle_times_single (starts : List Int) (runStop : Int) :
    List (Int × Int × Int) :=
  let s := dropDuplicates starts
  let durs := List.zipWith (fun a b => a - b) (s.drop 1 ++ [runStop]) s
  let stops := List.zipWith (fun a b => a + b) s durs
  List.zipWith (fun a b => (a, b, b - a)) s stops

/-! ## Run merging (`merge.py`) -/

/-- A 1-D histogram table (`rootloader.th1` stored as a dataframe): rows of
(bin label, bin content, bin error) plus the `sum` and `entries`
attributes. -/
structure Th1 where
  rows : List (Int × Int × ℚ)
  sumAttr : ℚ
  entries : Int

/-- The error pre-treatment `df[ylabel + " error"] **= 2` applied to the
concatenated rows. -/
def preSquared (rows : List (Int × Int × ℚ)) : List (Int × Int × ℚ) :=
  rows.map (fun r => (r.1, r.2.1, r.2.2 ^ 2))

/-- The group keys produced by `df.groupby(xlabel)`: the distinct bin
labels, in ascending order (pandas sorts group keys). -/
def groupLabels (rows : List (Int × Int × ℚ)) : List Int :=
  sortInts (dropDuplicates (rows.map (fun r => r.1)))

/-- `df.groupby(xlabel).sum()`: per distinct label, the sums of the content
and error columns over the rows carrying that label. -/
def groupSum (rows : List (Int × Int × ℚ)) : List (Int × Int × ℚ) :=
  (groupLabels rows).map (fun l =>
    let sel := rows.filter (fun r => r.1 = l)
    (l, (sel.map (fun r => r.2.1)).sum, (sel.map (fun r => r.2.2)).sum))

/-- The merged 1-D histogram: labels, per-bin contents, per-bin errors (the
error column after the `**= 0.5` post-treatment, hence real-valued), and
the summed `sum` / `entries` attributes. -/
structure MergedTh1 where
  labels : List Int
  counts : List Int
  errs : List ℝ
  sumAttr : ℚ
  entries : Int

/-- The `th1` branch of `merge`: concatenate the input tables' rows, square
the error column, group by bin label and sum, square-root the summed
errors, and sum the `sum` / `entries` metadata over the inputs. -/
noncomputable def mergeTh1 (hs : List Th1) : MergedTh1 :=
  let grouped := groupSum (preSquared ((hs.map Th1.rows).flatten))
  { labels := grouped.map (fun r => r.1)
    counts := grouped.map (fun r => r.2.1)
    errs := grouped.map (fun r => Real.sqrt ((r.2.2 : ℚ) : ℝ))
    sumAttr := (hs.map Th1.sumAttr).sum
    entries := (hs.map Th1.entries).sum }

/-- The `ttree` (event list) branch of `merge`:
`pd.concat(lst, axis='index')`, i.e. row concatenation in input order. -/
def mergeTrees (ts : List (List (Int × Int))) : List (Int × Int) := ts.flatten

/-- Sum of the content column of the rows carrying bin label `l` (the total
the claim's "per-bin contents" refers to). -/
def binContent (h : Th1) (l : Int) : Int :=
  ((h.rows.filter (fun r => r.1 = l)).map (fun r => r.2.1)).sum

/-- Sum of the squared error column of the rows carrying bin label `l`. -/
def binErrSq (h : Th1) (l : Int) : ℚ :=
  ((h.rows.filter (fun r => r.1 = l)).map (fun r => r.2.2 ^ 2)).sum

/-- Total histogram count: the sum of the bin-content column. -/
def totalCount (h : Th1) : Int := (h.rows.map (fun r => r.2.1)).sum

/-- C1: every row of a time-indexed table fetched through the view lies in
`[start, stop]` (inclusive), every in-window row of the underlying table is
present, a non-time-indexed table is returned unfiltered, and the reserved
keys `_start`/`_stop` are returned verbatim as the window bounds. -/
theorem C1_window_correctness (f : Tsubfile) (key : String) (tb : Table)
    (hkey : f.tables.lookup key = some tb)
    (h1 : key ≠ "_start") (h2 : key ≠ "_stop") :
    f.getitem "_start" = some (.timeval f.start) ∧
    f.getitem "_stop" = some (.timeval f.stop) ∧
    ∃ tb', f.getitem key = some (.table tb') ∧
      (hasTimeIndex tb = true →
        (∀ r ∈ tb'.rows, f.start ≤ r.1 ∧ r.1 ≤ f.stop) ∧
        (∀ r ∈ tb.rows, f.start ≤ r.1 → r.1 ≤ f.stop → r ∈ tb'.rows)) ∧
      (hasTimeIndex tb = false → tb' = tb) := by
  refine ⟨rfl, ?_, ?_⟩
  · simp [Tsubfile.getitem]
  · refine ⟨f.restrict tb, ?_, ?_, ?_⟩
    · simp [Tsubfile.getitem, h1, h2, hkey]
    · intro ht
      constructor
      · intro r hr
        simp only [Tsubfile.restrict, ht, if_pos] at hr
        simp only [List.mem_filter, Bool.and_eq_true, decide_eq_true_eq] at hr
        exact hr.2
      · intro r hr hlo hhi
        simp only [Tsubfile.restrict, ht, if_pos]
        simp only [List.mem_filter, Bool.and_eq_true, decide_eq_true_eq]
        exact ⟨hr, hlo, hhi⟩
    · intro ht
      simp [Tsubfile.restrict, ht]

/-- C1 witness: the theorem applied at a concrete view with one time-indexed
table. -/
theorem C1_window_correctness_witness :
    let tb : Table := ⟨some "tUnixTime", [(1, 10), (5, 20), (9, 30)]⟩
    let f : Tsubfile := ⟨2, 8, [("hits", tb)]⟩
    f.tables.lookup "hits" = some tb ∧
    (f.getitem "_start" = some (.timeval 2) ∧
     f.getitem "_stop" = some (.timeval 8) ∧
     ∃ tb', f.getitem "hits" = some (.table tb') ∧
      (hasTimeIndex tb = true →
        (∀ r ∈ tb'.rows, f.start ≤ r.1 ∧ r.1 ≤ f.stop) ∧
        (∀ r ∈ tb.rows, f.start ≤ r.1 → r.1 ≤ f.stop → r ∈ tb'.rows)) ∧
      (hasTimeIndex tb = false → tb' = tb)) := by
  refine ⟨by decide, C1_window_correctness _ "hits" _ (by decide)
    (by decide) (by decide)⟩

/-! ## Helper lemmas about association-list lookup and memoized access -/

/-- A successful association-list lookup is a membership. -/
theorem lookup_mem_of_eq_some {β : Type} {l : List (Nat × β)} {k : Nat} {v : β}
    (h : l.lookup k = some v) : (k, v) ∈ l := by
  induction l with
  | nil => simp [List.lookup] at h
  | cons p rest ih =>
    obtain ⟨k', v'⟩ := p
    simp only [List.lookup] at h
    by_cases hk : k = k'
    · subst hk
      simp only [beq_self_eq_true] at h
      injection h with h
      subst h
      exact List.mem_cons_self _ _
    · have hbeq : (k == k') = false := by simpa using hk
      rw [hbeq] at h
      exact List.mem_cons_of_mem _ (ih h)

/-- A key held by no entry looks up to `none`. -/
theorem lookup_eq_none_of_keys {β : Type} {l : List (Nat × β)} {k : Nat}
    (h : ∀ p ∈ l, p.1 ≠ k) : l.lookup k = none := by
  induction l with
  | nil => rfl
  | cons p rest ih =>
    obtain ⟨k', v'⟩ := p
    simp only [List.lookup]
    have hk : (k == k') = false := by
      simpa using fun hkk => (h (k', v') (List.mem_cons_self _ _)) hkk.symm
    rw [hk]
    exact ih (fun q hq => h q (List.mem_cons_of_mem _ hq))

/-- A valid cycle index is served successfully by `getCycleOne`, with the
returned view carrying that index; the memo state stays well formed and the
cycle count is untouched. -/
theorem getCycleOne_spec (r : RunState) (c : Nat) (hwf : WFRunState r)
    (hc : c < r.ncycles) :
    ∃ cyc r', getCycleOne r c = .ok (cyc, r') ∧ cyc.cycle = c ∧
      WFRunState r' ∧ r'.ncycles = r.ncycles := by
  unfold getCycleOne
  cases hl : r.cycledict.lookup c with
  | some cyc =>
    exact ⟨cyc, r, rfl, (hwf _ (lookup_mem_of_eq_some hl)).1, hwf, rfl⟩
  | none =>
    refine ⟨mkCycleObj r c,
      { r with cycledict := (c, mkCycleObj r c) :: r.cycledict,
               counter := r.counter + 1 },
      by rw [if_pos hc], rfl, ?_, rfl⟩
    intro p hp
    rcases List.mem_cons.mp hp with h | h
    · subst h; exact ⟨rfl, hc⟩
    · exact hwf p h

/-- A valid period index is served successfully by `getPeriodOne`. -/
theorem getPeriodOne_spec (cy : CycState) (p : Nat) (hwf : WFCycState cy)
    (hp : p < cy.nperiods) :
    ∃ per cy', getPeriodOne cy p = .ok (per, cy') ∧ per.period = p := by
  unfold getPeriodOne
  cases hl : cy.perioddict.lookup p with
  | some per =>
    exact ⟨per, cy, rfl, (hwf _ (lookup_mem_of_eq_some hl)).1⟩
  | none =>
    exact ⟨⟨p, cy.counter⟩,
      { cy with perioddict := (p, ⟨p, cy.counter⟩) :: cy.perioddict,
                counter := cy.counter + 1 },
      by rw [if_pos hp], rfl⟩

/-- Materializing `getCycleOne` over a list of valid indices succeeds,
yields one view per index in order, and preserves well-formedness. -/
theorem getCycleList_spec (l : List Nat) (r : RunState)
    (hwf : WFRunState r) (hl : ∀ i ∈ l, i < r.ncycles) :
    ∃ objs r', getCycleList r l = .ok (objs, r') ∧
      objs.map (fun o => o.cycle) = l ∧ WFRunState r' ∧
      r'.ncycles = r.ncycles := by
  induction l generalizing r with
  | nil => exact ⟨[], r, rfl, rfl, hwf, rfl⟩
  | cons i rest ih =>
    have hi : i < r.ncycles := hl i (List.mem_cons_self _ _)
    have hrest : ∀ j ∈ rest, j < r.ncycles :=
      fun j hj => hl j (List.mem_cons_of_mem _ hj)
    obtain ⟨cyc, r1, heq1, hcyc, hwf1, hn1⟩ := getCycleOne_spec r i hwf hi
    obtain ⟨objs, r', heq2, hmap, hwf', hn'⟩ :=
      ih r1 hwf1 (fun j hj => hn1 ▸ hrest j hj)
    refine ⟨cyc :: objs, r', ?_, by simp [hmap, hcyc], hwf', by rw [hn', hn1]⟩
    unfold getCycleList
    rw [heq1]
    dsimp only
    rw [heq2]

/-- Materializing `getPeriodOne` over a list of valid indices succeeds and
yields one view per index in order. -/
theorem getPeriodList_spec (l : List Nat) (cy : CycState)
    (hwf : WFCycState cy) (hl : ∀ i ∈ l, i < cy.nperiods) :
    ∃ objs cy', getPeriodList cy l = .ok (objs, cy') ∧
      objs.map (fun o => o.period) = l := by
  induction l generalizing cy with
  | nil => exact ⟨[], cy, rfl, rfl⟩
  | cons i rest ih =>
    have hi : i < cy.nperiods := hl i (List.mem_cons_self _ _)
    have hwf1 : ∀ cy1 per, getPeriodOne cy i = .ok (per, cy1) →
        WFCycState cy1 ∧ cy1.nperiods = cy.nperiods := by
      intro cy1 per h
      unfold getPeriodOne at h
      cases hlk : cy.perioddict.lookup i with
      | some q => rw [hlk] at h; injection h with h; cases h; exact ⟨hwf, rfl⟩
      | none =>
        rw [hlk, if_pos hi] at h
        injection h with h
        cases h
        refine ⟨?_, rfl⟩
        intro p hp
        rcases List.mem_cons.mp hp with h | h
        · subst h; exact ⟨rfl, hi⟩
        · exact hwf p h
    obtain ⟨per, cy1, heq1, hper⟩ := getPeriodOne_spec cy i hwf hi
    obtain ⟨hw1, hn1⟩ := hwf1 cy1 per heq1
    obtain ⟨objs, cy', heq2, hmap⟩ := ih cy1 hw1
      (fun j hj => hn1 ▸ hl j (List.mem_cons_of_mem _ hj))
    refine ⟨per :: objs, cy', ?_, by simp [hmap, hper]⟩
    unfold getPeriodList
    rw [heq1]
    dsimp only
    rw [heq2]

/-! ## C2: the cycle filter affects iteration and slicing, never point access -/

/-- C2: direct integer indexing `run[i]` returns cycle `i` regardless of the
cycle filter, while iteration and full-slice access apply the filter: for a
run with 3 cycles and mask `[True, False, True]`, `run[1]` returns cycle 1,
iterating yields exactly cycles 0 and 2, and `run[:]` yields exactly cycles
0 and 2. -/
theorem C2_filter_index_asymmetry :
    (∀ (r : RunState) (i : Int), WFRunState r → 0 ≤ i → i < (r.ncycles : Int) →
      ∃ cyc r', ucnrun_getitem_int r i = .ok (.one cyc, r') ∧
        cyc.cycle = i.toNat) ∧
    (∃ cyc r',
      ucnrun_getitem_int ⟨3, some [true, false, true], [], 0⟩ 1 =
        .ok (.one cyc, r') ∧ cyc.cycle = 1) ∧
    iterRun ⟨3, some [true, false, true], [], 0⟩ = [0, 2] ∧
    ucnrun_getitem_sliceAll ⟨3, some [true, false, true], [], 0⟩ = [0, 2] := by
  refine ⟨?_, ⟨⟨1, 0, some false⟩, _, rfl, rfl⟩, rfl, rfl⟩
  intro r i hwf h0 hn
  obtain ⟨cyc, r', heq, hcyc, _, _⟩ := getCycleOne_spec r i.toNat hwf (by omega)
  refine ⟨cyc, r', ?_, hcyc⟩
  have h1 : ¬ i < 0 := not_lt.mpr h0
  unfold ucnrun_getitem_int get_cycle
  dsimp only
  simp only [if_neg h1]
  rw [if_neg (show ¬ i > (r.ncycles : Int) by omega), heq]
  rfl

/-- C2 witness: the universal part applied at a concrete filtered run. -/
theorem C2_filter_index_asymmetry_witness :
    WFRunState ⟨2, some [false, true], [], 0⟩ ∧ (0 : Int) ≤ 0 ∧
    (0 : Int) < (((⟨2, some [false, true], [], 0⟩ : RunState).ncycles : Nat) : Int) ∧
    ∃ cyc r', ucnrun_getitem_int ⟨2, some [false, true], [], 0⟩ 0 =
      .ok (.one cyc, r') ∧ cyc.cycle = (0 : Int).toNat :=
  ⟨by decide, by decide, by decide,
    C2_filter_index_asymmetry.1 ⟨2, some [false, true], [], 0⟩ 0
      (by decide) (by decide) (by decide)⟩

/-! ## C8: bounds behaviour of integer indexing -/

/-- C8 (amended): negative indices with `-n <= i < 0` return child `n + i`;
an `IndexError` carrying the available count is raised exactly when the
negative-adjusted key strictly exceeds the count; an index equal to the
count passes the bounds check and instead fails with a `KeyError` from view
construction; an index below `-n` wraps to a still-negative key and returns
the full child list.  The same holds for period indexing on a cycle. -/
theorem C8_index_bounds_amended :
    (∀ (r : RunState) (i : Int), WFRunState r →
      (-(r.ncycles : Int) ≤ i → i < 0 →
        ∃ cyc r', ucnrun_getitem_int r i = .ok (.one cyc, r') ∧
          (cyc.cycle : Int) = (r.ncycles : Int) + i) ∧
      ((r.ncycles : Int) < i →
        ucnrun_getitem_int r i = .error (.indexError r.ncycles)) ∧
      (i = (r.ncycles : Int) → ucnrun_getitem_int r i = .error .keyError) ∧
      (i < -(r.ncycles : Int) →
        ∃ objs r', ucnrun_getitem_int r i = .ok (.all objs, r'))) ∧
    (∀ (cy : CycState) (i : Int), WFCycState cy →
      (-(cy.nperiods : Int) ≤ i → i < 0 →
        ∃ per cy', ucncycle_getitem_int cy i = .ok (.one per, cy') ∧
          (per.period : Int) = (cy.nperiods : Int) + i) ∧
      ((cy.nperiods : Int) < i →
        ucncycle_getitem_int cy i = .error (.indexError cy.nperiods)) ∧
      (i = (cy.nperiods : Int) →
        ucncycle_getitem_int cy i = .error .keyError) ∧
      (i < -(cy.nperiods : Int) →
        ∃ objs cy', ucncycle_getitem_int cy i = .ok (.all objs, cy'))) := by
  constructor
  · intro r i hwf
    refine ⟨?_, ?_, ?_, ?_⟩
    · intro hlo hhi
      obtain ⟨cyc, r', heq, hcyc, _, _⟩ :=
        getCycleOne_spec r ((r.ncycles : Int) + i).toNat hwf (by omega)
      refine ⟨cyc, r', ?_, by rw [hcyc]; omega⟩
      unfold ucnrun_getitem_int get_cycle
      dsimp only
      simp only [if_pos hhi]
      rw [if_neg (show ¬ (r.ncycles : Int) + i > (r.ncycles : Int) by omega),
        if_neg (show ¬ (r.ncycles : Int) + i < 0 by omega), heq]
      rfl
    · intro hgt
      unfold ucnrun_getitem_int
      dsimp only
      simp only [if_neg (show ¬ i < 0 by omega)]
      rw [if_pos hgt]
    · intro hi
      subst hi
      unfold ucnrun_getitem_int get_cycle
      dsimp only
      simp only [if_neg (show ¬ (r.ncycles : Int) < 0 by omega)]
      rw [if_neg (show ¬ (r.ncycles : Int) > (r.ncycles : Int) by omega)]
      have hnone : r.cycledict.lookup ((r.ncycles : Int)).toNat = none :=
        lookup_eq_none_of_keys (fun p hp => by
          have := (hwf p hp).2
          omega)
      unfold getCycleOne
      rw [hnone, if_neg (show ¬ ((r.ncycles : Int)).toNat < r.ncycles by omega)]
      rfl
    · intro hlt
      obtain ⟨objs, r', heq, _, _, _⟩ := getCycleList_spec (List.range r.ncycles)
        r hwf (fun j hj => List.mem_range.mp hj)
      refine ⟨objs, r', ?_⟩
      unfold ucnrun_getitem_int get_cycle getCycleAll
      dsimp only
      simp only [if_pos (show i < 0 by omega)]
      rw [if_neg (show ¬ (r.ncycles : Int) + i > (r.ncycles : Int) by omega),
        if_pos (show (r.ncycles : Int) + i < 0 by omega), heq]
      rfl
  · intro cy i hwf
    refine ⟨?_, ?_, ?_, ?_⟩
    · intro hlo hhi
      obtain ⟨per, cy', heq, hper⟩ :=
        getPeriodOne_spec cy ((cy.nperiods : Int) + i).toNat hwf (by omega)
      refine ⟨per, cy', ?_, by rw [hper]; omega⟩
      unfold ucncycle_getitem_int get_period
      dsimp only
      simp only [if_pos hhi]
      rw [if_neg (show ¬ (cy.nperiods : Int) + i > (cy.nperiods : Int) by omega),
        if_neg (show ¬ (cy.nperiods : Int) + i < 0 by omega), heq]
      rfl
    · intro hgt
      unfold ucncycle_getitem_int
      dsimp only
      simp only [if_neg (show ¬ i < 0 by omega)]
      rw [if_pos hgt]
    · intro hi
      subst hi
      unfold ucncycle_getitem_int get_period
      dsimp only
      simp only [if_neg (show ¬ (cy.nperiods : Int) < 0 by omega)]
      rw [if_neg (show ¬ (cy.nperiods : Int) > (cy.nperiods : Int) by omega)]
      have hnone : cy.perioddict.lookup ((cy.nperiods : Int)).toNat = none :=
        lookup_eq_none_of_keys (fun p hp => by
          have := (hwf p hp).2
          omega)
      unfold getPeriodOne
      rw [hnone, if_neg (show ¬ ((cy.nperiods : Int)).toNat < cy.nperiods by omega)]
      rfl
    · intro hlt
      obtain ⟨objs, cy', heq, _⟩ := getPeriodList_spec (List.range cy.nperiods)
        cy hwf (fun j hj => List.mem_range.mp hj)
      refine ⟨objs, cy', ?_⟩
      unfold ucncycle_getitem_int get_period getPeriodAll
      dsimp only
      simp only [if_pos (show i < 0 by omega)]
      rw [if_neg (show ¬ (cy.nperiods : Int) + i > (cy.nperiods : Int) by omega),
        if_pos (show (cy.nperiods : Int) + i < 0 by omega), heq]
      rfl

/-- C8 counterexample: on a run with 3 cycles, `run[3]` is out of range but
does not raise the `IndexError` naming the count (the bounds check uses a
strict `>`): it falls through to view construction and dies with a
`KeyError`; and `run[-4]` returns the full cycle list instead of raising. -/
theorem C8_index_bounds_counterexample :
    ucnrun_getitem_int ⟨3, none, [], 0⟩ 3 = .error .keyError ∧
    GetErr.keyError ≠ .indexError 3 ∧
    ucnrun_getitem_int ⟨3, none, [], 0⟩ (-4) =
      .ok (.all [⟨0, 0, none⟩, ⟨1, 1, none⟩, ⟨2, 2, none⟩],
        ⟨3, none, [(2, ⟨2, 2, none⟩), (1, ⟨1, 1, none⟩), (0, ⟨0, 0, none⟩)], 3⟩) :=
  ⟨rfl, by decide, rfl⟩

/-- C8 witness: the amended theorem applied at a concrete run and index. -/
theorem C8_index_bounds_witness :
    WFRunState ⟨2, none, [], 0⟩ ∧
    ∃ cyc r', ucnrun_getitem_int ⟨2, none, [], 0⟩ (-1) = .ok (.one cyc, r') ∧
      (cyc.cycle : Int) = (((⟨2, none, [], 0⟩ : RunState).ncycles : Nat) : Int) + (-1) :=
  ⟨by decide,
    (C8_index_bounds_amended.1 ⟨2, none, [], 0⟩ (-1) (by decide)).1
      (by decide) (by decide)⟩

/-! ## C9: `get_cycle` on `None`/negative input, and memoization -/

/-- C9: `get_cycle` with `None` or any negative integer returns the list of
all cycles in index order (hence `run.get_cycle(-1)` is the full list while
`run[-1]` is the single last cycle), a nonnegative index already in the
memo dictionary is served from it, and a repeated call returns the same
object with the state unchanged. -/
theorem C9_get_cycle_negative_and_memo (r : RunState) (hwf : WFRunState r)
    (hn : 0 < r.ncycles) :
    (∀ k : Int, k < 0 →
      ∃ objs r', get_cycle r (some k) = .ok (.all objs, r') ∧
        objs.map (fun o => o.cycle) = List.range r.ncycles) ∧
    (∃ objs r', get_cycle r none = .ok (.all objs, r') ∧
      objs.map (fun o => o.cycle) = List.range r.ncycles) ∧
    (∀ c cyc, r.cycledict.lookup c = some cyc →
      getCycleOne r c = .ok (cyc, r)) ∧
    (∀ c cyc r₁, getCycleOne r c = .ok (cyc, r₁) →
      getCycleOne r₁ c = .ok (cyc, r₁)) ∧
    (∃ cyc r₁ objs r₂,
      ucnrun_getitem_int r (-1) = .ok (.one cyc, r₁) ∧
      cyc.cycle = r.ncycles - 1 ∧
      get_cycle r (some (-1)) = .ok (.all objs, r₂) ∧
      CycleRes.one cyc ≠ CycleRes.all objs) := by
  have hall : ∀ k : Int, k < 0 →
      ∃ objs r', get_cycle r (some k) = .ok (.all objs, r') ∧
        objs.map (fun o => o.cycle) = List.range r.ncycles := by
    intro k hk
    obtain ⟨objs, r', heq, hmap, _, _⟩ := getCycleList_spec (List.range r.ncycles)
      r hwf (fun j hj => List.mem_range.mp hj)
    refine ⟨objs, r', ?_, hmap⟩
    unfold get_cycle getCycleAll
    dsimp only
    rw [if_pos hk, heq]
    rfl
  refine ⟨hall, ?_, ?_, ?_, ?_⟩
  · obtain ⟨objs, r', heq, hmap, _, _⟩ := getCycleList_spec (List.range r.ncycles)
      r hwf (fun j hj => List.mem_range.mp hj)
    refine ⟨objs, r', ?_, hmap⟩
    unfold get_cycle getCycleAll
    rw [heq]
    rfl
  · intro c cyc hl
    unfold getCycleOne
    rw [hl]
  · intro c cyc r₁ h
    unfold getCycleOne at h ⊢
    cases hl : r.cycledict.lookup c with
    | some q =>
      rw [hl] at h
      injection h with h
      cases h
      rw [hl]
    | none =>
      rw [hl] at h
      by_cases hc : c < r.ncycles
      · rw [if_pos hc] at h
        injection h with h
        cases h
        have : ((c, mkCycleObj r c) :: r.cycledict).lookup c = some (mkCycleObj r c) := by
          simp [List.lookup]
        rw [this]
      · rw [if_neg hc] at h
        exact absurd h (by simp)
  · have h0 : ¬ ((-1 : Int) < -(r.ncycles : Int)) := by omega
    obtain ⟨cyc, r₁, heq1, hcyc, _, _⟩ :=
      getCycleOne_spec r ((r.ncycles : Int) + (-1)).toNat hwf (by omega)
    obtain ⟨objs, r₂, heq2, hmap⟩ := hall (-1) (by omega)
    refine ⟨cyc, r₁, objs, r₂, ?_, by rw [hcyc]; omega, heq2, by simp⟩
    unfold ucnrun_getitem_int get_cycle
    dsimp only
    simp only [if_pos (show (-1 : Int) < 0 by omega)]
    rw [if_neg (show ¬ (r.ncycles : Int) + (-1) > (r.ncycles : Int) by omega),
      if_neg (show ¬ (r.ncycles : Int) + (-1) < 0 by omega), heq1]
    rfl

/-- C9 witness: the theorem applied at a concrete two-cycle run. -/
theorem C9_get_cycle_negative_and_memo_witness :
    WFRunState ⟨2, none, [], 0⟩ ∧ 0 < (⟨2, none, [], 0⟩ : RunState).ncycles ∧
    (∃ cyc r₁ objs r₂,
      ucnrun_getitem_int ⟨2, none, [], 0⟩ (-1) = .ok (.one cyc, r₁) ∧
      cyc.cycle = (⟨2, none, [], 0⟩ : RunState).ncycles - 1 ∧
      get_cycle ⟨2, none, [], 0⟩ (some (-1)) = .ok (.all objs, r₂) ∧
      CycleRes.one cyc ≠ CycleRes.all objs) :=
  ⟨by decide, by decide,
    (C9_get_cycle_negative_and_memo ⟨2, none, [], 0⟩
      (by decide) (by decide)).2.2.2.2⟩

/-! ## C10: `set_cycle_filter` re-points the cached cycle views -/

/-- C10: after a successful `set_cycle_filter(mask)` call the run's filter
is the mask, and every cycle view already cached in `_cycledict` carries
`cycle_param.filter` equal to the mask value at its own index. -/
theorem C10_filter_propagates_to_cached (r : RunState) (mask : List Bool)
    (r' : RunState) (hok : set_cycle_filter r mask = .ok r') :
    r'.cfilter = some mask ∧
    ∀ k cyc, (k, cyc) ∈ r'.cycledict → ∀ hk : k < mask.length,
      cyc.cfilter = some (mask[k]) := by
  unfold set_cycle_filter at hok
  by_cases hlen : mask.length ≠ r.ncycles
  · rw [if_pos hlen] at hok
    exact absurd hok (by simp)
  · rw [if_neg hlen] at hok
    injection hok with hok
    subst hok
    refine ⟨rfl, ?_⟩
    intro k cyc hmem hk
    simp only [List.mem_map] at hmem
    obtain ⟨p, hp, heq⟩ := hmem
    simp only [Prod.mk.injEq] at heq
    obtain ⟨h1, h2⟩ := heq
    subst h1
    subst h2
    show some (mask.getD p.1 false) = some (mask[p.1])
    rw [List.getD_eq_getElem mask false hk]

/-- C10 witness: the theorem applied at a run with one cached cycle view. -/
theorem C10_filter_propagates_to_cached_witness :
    set_cycle_filter ⟨2, none, [(0, ⟨0, 0, none⟩)], 1⟩ [false, true] =
      .ok ⟨2, some [false, true], [(0, ⟨0, 0, some false⟩)], 1⟩ ∧
    (0, (⟨0, 0, some false⟩ : CycleObj)) ∈
      (⟨2, some [false, true], [(0, ⟨0, 0, some false⟩)], 1⟩ : RunState).cycledict ∧
    CycleObj.cfilter ⟨0, 0, some false⟩ = some (([false, true] : List Bool)[0]) :=
  ⟨rfl, by decide,
    (C10_filter_propagates_to_cached ⟨2, none, [(0, ⟨0, 0, none⟩)], 1⟩
        [false, true] ⟨2, some [false, true], [(0, ⟨0, 0, some false⟩)], 1⟩ rfl).2
      0 ⟨0, 0, some false⟩ (by decide) (by decide)⟩

/-! ## Helper lemmas for the timing-edit model -/

/-- `getD` after `set` at a different index. -/
theorem getD_set_of_ne {α : Type} (l : List α) {i j : Nat} (x d : α)
    (h : i ≠ j) : (l.set i x).getD j d = l.getD j d := by
  induction l generalizing i j with
  | nil => rfl
  | cons a t ih =>
    cases i with
    | zero =>
      cases j with
      | zero => exact absurd rfl h
      | succ j => rfl
    | succ i =>
      cases j with
      | zero => rfl
      | succ j =>
        show (t.set i x).getD j d = t.getD j d
        exact ih (fun hh => h (by rw [hh]))

/-- `getD` after `set` at the same in-range index. -/
theorem getD_set_self {α : Type} (l : List α) {i : Nat} (x d : α)
    (h : i < l.length) : (l.set i x).getD i d = x := by
  induction l generalizing i with
  | nil => simp at h
  | cons a t ih =>
    cases i with
    | zero => rfl
    | succ i => exact ih (by simpa using h)

/-- `getD` of a `zipWith` at an in-range index. -/
theorem getD_zipWith {α β γ : Type} (f : α → β → γ) (da : α) (db : β) (dc : γ) :
    ∀ (l1 : List α) (l2 : List β) (i : Nat), i < l1.length → i < l2.length →
    (List.zipWith f l1 l2).getD i dc = f (l1.getD i da) (l2.getD i db) := by
  intro l1
  induction l1 with
  | nil => intro l2 i h1 _; simp at h1
  | cons a t ih =>
    intro l2 i h1 h2
    cases l2 with
    | nil => simp at h2
    | cons b u =>
      cases i with
      | zero => rfl
      | succ i =>
        show (List.zipWith f t u).getD i dc = f (t.getD i da) (u.getD i db)
        exact ih u i (by simpa using h1) (by simpa using h2)

/-- The telescoping sum of one differenced column: the durations of a cycle
always sum to its last period end minus its start. -/
theorem sum_diffRow (l : List Int) (a : Int) :
    (diffRow a l).sum = l.getLastD a - a := by
  induction l generalizing a with
  | nil => simp [diffRow]
  | cons x xs ih =>
    show ((x - a) :: diffRow x xs).sum = (x :: xs).getLastD a - a
    rw [List.sum_cons, ih x, List.getLastD_cons]
    ring

/-- `setPend` leaves every column's length unchanged. -/
theorem setPend_row_length (s : CycParam) (c p : Nat) (v : Int) (c' : Nat) :
    ((setPend s c p v).pend.getD c' []).length = (s.pend.getD c' []).length := by
  unfold setPend
  dsimp only
  by_cases hc : c = c'
  · subst hc
    by_cases hlt : c < s.pend.length
    · rw [getD_set_self _ _ _ hlt, List.length_set]
    · rw [List.set_eq_of_length_le (le_of_not_lt hlt)]
  · rw [getD_set_of_ne _ _ _ hc]

/-- `setPend` leaves the number of columns unchanged. -/
theorem setPend_pend_length (s : CycParam) (c p : Nat) (v : Int) :
    (setPend s c p v).pend.length = s.pend.length := by
  simp [setPend]

/-- Reading back the written entry. -/
theorem getPend_setPend_self (s : CycParam) {c p : Nat} (v : Int)
    (hc : c < s.pend.length) (hp : p < (s.pend.getD c []).length) :
    getPend (setPend s c p v) c p = v := by
  unfold getPend setPend
  dsimp only
  rw [getD_set_self _ _ _ hc, getD_set_self _ _ _ hp]

/-- Reading another period of the written column. -/
theorem getPend_setPend_ne (s : CycParam) {c p j : Nat} (v : Int)
    (h : p ≠ j) : getPend (setPend s c p v) c j = getPend s c j := by
  unfold getPend setPend
  dsimp only
  by_cases hc : c < s.pend.length
  · rw [getD_set_self _ _ _ hc, getD_set_of_ne _ _ _ h]
  · rw [List.set_eq_of_length_le (le_of_not_lt hc)]

/-- `chainLo` stays strictly below a positive edit period. -/
theorem chainLo_lt (durs : List Int) : ∀ p, 0 < p → chainLo durs p < p := by
  intro p
  induction p with
  | zero => intro h; exact absurd h (lt_irrefl 0)
  | succ q ih =>
    intro _
    cases q with
    | zero => exact Nat.zero_lt_one
    | succ k =>
      show chainLo durs (k + 2) < k + 2
      unfold chainLo
      split
      · exact Nat.lt_succ_of_lt (ih (Nat.succ_pos k))
      · exact Nat.lt_succ_self _

/-- `adjustStart` never touches the stop, duration or period-duration
state, and preserves all lengths. -/
theorem adjustStart_fields (cycle : Nat) (dt : Int) : ∀ (p : Nat) (s : CycParam),
    (adjustStart cycle dt p s).cstop = s.cstop ∧
    (adjustStart cycle dt p s).cdur = s.cdur ∧
    (adjustStart cycle dt p s).pdur = s.pdur ∧
    (adjustStart cycle dt p s).cstart.length = s.cstart.length ∧
    (adjustStart cycle dt p s).pend.length = s.pend.length ∧
    ∀ c', ((adjustStart cycle dt p s).pend.getD c' []).length =
      (s.pend.getD c' []).length := by
  intro p
  induction p with
  | zero =>
    intro s
    refine ⟨rfl, rfl, rfl, ?_, rfl, fun c' => rfl⟩
    simp [adjustStart]
  | succ q ih =>
    intro s
    have hunf : adjustStart cycle dt (q + 1) s =
        (if 0 < q ∧
            getPdur (setPend s cycle q (getPend s cycle q + dt)) cycle q = some 0
         then adjustStart cycle dt q (setPend s cycle q (getPend s cycle q + dt))
         else setPend s cycle q (getPend s cycle q + dt)) := rfl
    rw [hunf]
    by_cases hcond : 0 < q ∧
        getPdur (setPend s cycle q (getPend s cycle q + dt)) cycle q = some 0
    · rw [if_pos hcond]
      obtain ⟨h1, h2, h3, h4, h5, h6⟩ :=
        ih (setPend s cycle q (getPend s cycle q + dt))
      exact ⟨h1, h2, h3, h4,
        h5.trans (setPend_pend_length s cycle q _),
        fun c' => (h6 c').trans (setPend_row_length s cycle q _ c')⟩
    · rw [if_neg hcond]
      exact ⟨rfl, rfl, rfl, rfl, setPend_pend_length s cycle q _,
        fun c' => setPend_row_length s cycle q _ c'⟩

/-- Closed form of the start-time edit for a positive period: period end
times at indices `chainLo durs p .. p-1` shift by `dt` (the walk through
zero-duration predecessors, stopping before period index 0), everything
else in the edited column is untouched, and the cycle start is untouched. -/
theorem adjustStart_pend_chain (cycle : Nat) (dt : Int) :
    ∀ (p : Nat) (s : CycParam), 0 < p → cycle < s.pend.length →
    p ≤ (s.pend.getD cycle []).length →
    (∀ j, getPend (adjustStart cycle dt p s) cycle j =
      if chainLo (s.pdur.getD cycle []) p ≤ j ∧ j < p
      then getPend s cycle j + dt else getPend s cycle j) ∧
    (adjustStart cycle dt p s).cstart = s.cstart := by
  intro p
  induction p with
  | zero => intro s h; exact absurd h (lt_irrefl 0)
  | succ q ih =>
    intro s _ hc hp
    have hq : q < (s.pend.getD cycle []).length := hp
    have hunf : adjustStart cycle dt (q + 1) s =
        (if 0 < q ∧
            getPdur (setPend s cycle q (getPend s cycle q + dt)) cycle q = some 0
         then adjustStart cycle dt q (setPend s cycle q (getPend s cycle q + dt))
         else setPend s cycle q (getPend s cycle q + dt)) := rfl
    rw [hunf]
    by_cases hcond : 0 < q ∧
        getPdur (setPend s cycle q (getPend s cycle q + dt)) cycle q = some 0
    · rw [if_pos hcond]
      have hdurs : (s.pdur.getD cycle []).get? q = some 0 := hcond.2
      have hch : chainLo (s.pdur.getD cycle []) (q + 1) =
          chainLo (s.pdur.getD cycle []) q := by
        obtain ⟨k, hk⟩ : ∃ k, q = k + 1 := ⟨q - 1, by omega⟩
        subst hk
        have he : chainLo (s.pdur.getD cycle []) (k + 1 + 1) =
            (if (s.pdur.getD cycle []).get? (k + 1) = some 0
             then chainLo (s.pdur.getD cycle []) (k + 1) else k + 1) := rfl
        rw [he, if_pos hdurs]
      obtain ⟨ihj, ihc⟩ := ih (setPend s cycle q (getPend s cycle q + dt))
        hcond.1
        (by rw [setPend_pend_length]; exact hc)
        (by rw [setPend_row_length]; omega)
      refine ⟨?_, ihc⟩
      intro j
      rw [ihj j, hch]
      by_cases hj : j = q
      · subst hj
        rw [if_neg (fun h => absurd h.2 (lt_irrefl j)),
          getPend_setPend_self s _ hc hq,
          if_pos ⟨le_of_lt (chainLo_lt _ _ hcond.1), Nat.lt_succ_self j⟩]
      · rw [getPend_setPend_ne s _ (fun h => hj h.symm)]
        have hpd : (setPend s cycle q (getPend s cycle q + dt)).pdur = s.pdur := rfl
        rw [hpd]
        by_cases h1 : chainLo (s.pdur.getD cycle []) q ≤ j ∧ j < q
        · rw [if_pos h1, if_pos ⟨h1.1, Nat.lt_succ_of_lt h1.2⟩]
        · rw [if_neg h1, if_neg (fun h2 => h1 ⟨h2.1, by omega⟩)]
    · rw [if_neg hcond]
      have hch : chainLo (s.pdur.getD cycle []) (q + 1) = q := by
        cases q with
        | zero => rfl
        | succ k =>
          have he : chainLo (s.pdur.getD cycle []) (k + 1 + 1) =
              (if (s.pdur.getD cycle []).get? (k + 1) = some 0
               then chainLo (s.pdur.getD cycle []) (k + 1) else k + 1) := rfl
          have hne : ¬ (s.pdur.getD cycle []).get? (k + 1) = some 0 :=
            fun hd => hcond ⟨Nat.succ_pos k, hd⟩
          rw [he, if_neg hne]
      refine ⟨?_, rfl⟩
      intro j
      rw [hch]
      by_cases hj : j = q
      · subst hj
        rw [getPend_setPend_self s _ hc hq,
          if_pos ⟨Nat.le_refl j, Nat.lt_succ_self j⟩]
      · rw [getPend_setPend_ne s _ (fun h => hj h.symm),
          if_neg (fun h2 => hj (by omega))]

/-- `adjustStopAux` never touches start, stop, duration or period-duration
state, and preserves all lengths. -/
theorem adjustStopAux_fields (cycle : Nat) (dt : Int) :
    ∀ (fuel p : Nat) (s : CycParam),
    (adjustStopAux cycle dt fuel p s).cstart = s.cstart ∧
    (adjustStopAux cycle dt fuel p s).cstop = s.cstop ∧
    (adjustStopAux cycle dt fuel p s).cdur = s.cdur ∧
    (adjustStopAux cycle dt fuel p s).pdur = s.pdur ∧
    (adjustStopAux cycle dt fuel p s).pend.length = s.pend.length ∧
    ∀ c', ((adjustStopAux cycle dt fuel p s).pend.getD c' []).length =
      (s.pend.getD c' []).length := by
  intro fuel
  induction fuel with
  | zero => intro p s; exact ⟨rfl, rfl, rfl, rfl, rfl, fun _ => rfl⟩
  | succ F ih =>
    intro p s
    unfold adjustStopAux
    dsimp only
    have hlen2 : ∀ (s' : CycParam) (v w : Int),
        (setPend (setPend s' cycle p v) cycle p w).pend.length =
          s'.pend.length := by
      intro s' v w
      rw [setPend_pend_length, setPend_pend_length]
    have hrow2 : ∀ (s' : CycParam) (v w : Int) (c' : Nat),
        ((setPend (setPend s' cycle p v) cycle p w).pend.getD c' []).length =
          (s'.pend.getD c' []).length := by
      intro s' v w c'
      rw [setPend_row_length, setPend_row_length]
    split
    · split
      · obtain ⟨h1, h2, h3, h4, h5, h6⟩ := ih (p + 1)
          (setPend (setPend s cycle p (getPend s cycle p + dt)) cycle p _)
        exact ⟨h1, h2, h3, h4, h5.trans (hlen2 s _ _),
          fun c' => (h6 c').trans (hrow2 s _ _ c')⟩
      · exact ⟨rfl, rfl, rfl, rfl, hlen2 s _ _, fun c' => hrow2 s _ _ c'⟩
    · exact ⟨rfl, rfl, rfl, rfl, hlen2 s _ _, fun c' => hrow2 s _ _ c'⟩

/-- `adjustStopAux` leaves the edited column untouched strictly below the
entry period. -/
theorem adjustStopAux_pend_lt (cycle : Nat) (dt : Int) :
    ∀ (fuel p : Nat) (s : CycParam) (j : Nat), j < p →
    getPend (adjustStopAux cycle dt fuel p s) cycle j = getPend s cycle j := by
  intro fuel
  induction fuel with
  | zero => intro p s j _; rfl
  | succ F ih =>
    intro p s j hj
    unfold adjustStopAux
    dsimp only
    have hne : p ≠ j := by omega
    have hbase : ∀ (v w : Int),
        getPend (setPend (setPend s cycle p v) cycle p w) cycle j =
          getPend s cycle j := by
      intro v w
      rw [getPend_setPend_ne _ _ hne, getPend_setPend_ne _ _ hne]
    split
    · split
      · rw [ih (p + 1) _ j (by omega), hbase]
      · exact hbase _ _
    · exact hbase _ _

/-- After a stop-time edit, the edited period's end is clamped to at most
the cycle's stop time. -/
theorem adjustStop_clamped (s : CycParam) (cycle p : Nat) (dt : Int)
    (hc : cycle < s.pend.length) (hp : p < (s.pend.getD cycle []).length) :
    getPend (adjustStop s cycle p dt) cycle p ≤ s.cstop.getD cycle 0 := by
  unfold adjustStop adjustStopAux
  dsimp only
  have hc1 : cycle < (setPend s cycle p (getPend s cycle p + dt)).pend.length := by
    rw [setPend_pend_length]; exact hc
  have hp1 : p < ((setPend s cycle p (getPend s cycle p + dt)).pend.getD cycle []).length := by
    rw [setPend_row_length]; exact hp
  have hval : getPend (setPend (setPend s cycle p (getPend s cycle p + dt)) cycle p
      (min (getPend (setPend s cycle p (getPend s cycle p + dt)) cycle p)
        ((setPend s cycle p (getPend s cycle p + dt)).cstop.getD cycle 0)))
      cycle p ≤ s.cstop.getD cycle 0 := by
    rw [getPend_setPend_self _ _ hc1 hp1]
    exact min_le_right _ _
  split
  · split
    · rw [adjustStopAux_pend_lt cycle dt _ (p + 1) _ p (Nat.lt_succ_self p)]
      exact hval
    · exact hval
  · exact hval

/-! ## C3: the timing-edit invariants -/

/-- C3 counterexample: a single-cycle state satisfying all three invariants
(non-decreasing period ends, ends bounded by the cycle stop, durations
summing to the cycle duration); one start-time edit of period 1 by +60
pushes period 0's end past period 1's end and past the cycle stop, so after
the call the period end times are neither non-decreasing nor bounded. -/
theorem C3_timing_invariants_counterexample :
    pendMono ⟨[0], [100], [100], [[50, 100]], [[50, 50]]⟩ ∧
    pendBounded ⟨[0], [100], [100], [[50, 100]], [[50, 50]]⟩ ∧
    pdurSumEqCdur ⟨[0], [100], [100], [[50, 100]], [[50, 50]]⟩ ∧
    (modifyPtiming ⟨[0], [100], [100], [[50, 100]], [[50, 50]]⟩ 0 1 60 0).pend =
      [[110, 100]] ∧
    ¬ pendMono (modifyPtiming ⟨[0], [100], [100], [[50, 100]], [[50, 50]]⟩ 0 1 60 0) ∧
    ¬ pendBounded (modifyPtiming ⟨[0], [100], [100], [[50, 100]], [[50, 50]]⟩ 0 1 60 0) := by
  decide

/-- What the `update_duration` epilogue guarantees, for any state it is
applied to. -/
theorem updateDurations_spec (t : CycParam) (cycle c : Nat)
    (hc : c < t.pend.length) (hcs : c < t.cstart.length) :
    (updateDurations t cycle).pdur.getD c [] =
      diffRow (t.cstart.getD c 0) (t.pend.getD c []) ∧
    ((updateDurations t cycle).pdur.getD c []).sum =
      (t.pend.getD c []).getLastD (t.cstart.getD c 0) - t.cstart.getD c 0 := by
  have h1 : (updateDurations t cycle).pdur.getD c [] =
      diffRow (t.cstart.getD c 0) (t.pend.getD c []) :=
    getD_zipWith (fun l stt => diffRow stt l) [] 0 [] t.pend t.cstart c hc hcs
  refine ⟨h1, ?_⟩
  rw [h1]
  exact sum_diffRow _ _

/-- C3 (amended): after any `_modify_ptiming` call the period durations are
recomputed as successive differences of the period end times (period 0
against the cycle start), hence every cycle's durations sum to its last
period end minus its cycle start; the edited cycle's `duration (s)` entry
is refreshed from cycle 0's stop minus start (the source reads row 0 of
`stop - start` whatever cycle was edited); and a nonzero stop delta leaves
the edited period's end clamped to at most the cycle's stop.  Monotonicity
and boundedness of the period end times are not enforced. -/
theorem C3_timing_invariants_amended (s : CycParam) (cycle period : Nat)
    (dtStart dtStop : Int) (hc : cycle < s.pend.length)
    (hlen : s.pend.length = s.cstart.length) :
    (∀ c, c < s.pend.length →
      (modifyPtiming s cycle period dtStart dtStop).pdur.getD c [] =
        diffRow ((modifyPtiming s cycle period dtStart dtStop).cstart.getD c 0)
          ((modifyPtiming s cycle period dtStart dtStop).pend.getD c []) ∧
      ((modifyPtiming s cycle period dtStart dtStop).pdur.getD c []).sum =
        ((modifyPtiming s cycle period dtStart dtStop).pend.getD c []).getLastD
          ((modifyPtiming s cycle period dtStart dtStop).cstart.getD c 0) -
        (modifyPtiming s cycle period dtStart dtStop).cstart.getD c 0) ∧
    (modifyPtiming s cycle period dtStart dtStop).cdur =
      s.cdur.set cycle (s.cstop.getD 0 0 -
        (modifyPtiming s cycle period dtStart dtStop).cstart.getD 0 0) ∧
    (dtStop ≠ 0 → period < (s.pend.getD cycle []).length →
      getPend (modifyPtiming s cycle period dtStart dtStop) cycle period ≤
        s.cstop.getD cycle 0) := by
  set s1 := (if dtStart ≠ 0 then adjustStart cycle dtStart period s else s)
    with hs1
  set s2 := (if dtStop ≠ 0 then adjustStop s1 cycle period dtStop else s1)
    with hs2
  have hmod : modifyPtiming s cycle period dtStart dtStop =
      updateDurations s2 cycle := by
    rw [hs2, hs1]
    rfl
  have h1stop : s1.cstop = s.cstop := by
    rw [hs1]
    by_cases hd : dtStart ≠ 0
    · rw [if_pos hd]; exact (adjustStart_fields cycle dtStart period s).1
    · rw [if_neg hd]
  have h1pendlen : s1.pend.length = s.pend.length := by
    rw [hs1]
    by_cases hd : dtStart ≠ 0
    · rw [if_pos hd]; exact (adjustStart_fields cycle dtStart period s).2.2.2.2.1
    · rw [if_neg hd]
  have h1cstartlen : s1.cstart.length = s.cstart.length := by
    rw [hs1]
    by_cases hd : dtStart ≠ 0
    · rw [if_pos hd]; exact (adjustStart_fields cycle dtStart period s).2.2.2.1
    · rw [if_neg hd]
  have h1rows : ∀ c', (s1.pend.getD c' []).length = (s.pend.getD c' []).length := by
    intro c'
    rw [hs1]
    by_cases hd : dtStart ≠ 0
    · rw [if_pos hd]; exact (adjustStart_fields cycle dtStart period s).2.2.2.2.2 c'
    · rw [if_neg hd]
  have h2fields := adjustStopAux_fields cycle dtStop
    ((s1.pdur.getD cycle []).length + 1) period s1
  have h2stop : s2.cstop = s.cstop := by
    rw [hs2]
    by_cases hd : dtStop ≠ 0
    · rw [if_pos hd]
      exact (h2fields.2.1).trans h1stop
    · rw [if_neg hd]; exact h1stop
  have h2pendlen : s2.pend.length = s.pend.length := by
    rw [hs2]
    by_cases hd : dtStop ≠ 0
    · rw [if_pos hd]
      exact (h2fields.2.2.2.2.1).trans h1pendlen
    · rw [if_neg hd]; exact h1pendlen
  have h2cstartlen : s2.cstart.length = s.cstart.length := by
    rw [hs2]
    by_cases hd : dtStop ≠ 0
    · rw [if_pos hd]
      exact (h2fields.1 ▸ h1cstartlen : _)
    · rw [if_neg hd]; exact h1cstartlen
  have h2cdur : s2.cdur = s.cdur := by
    rw [hs2]
    by_cases hd : dtStop ≠ 0
    · rw [if_pos hd]
      have hcd1 : s1.cdur = s.cdur := by
        rw [hs1]
        by_cases he : dtStart ≠ 0
        · rw [if_pos he]; exact (adjustStart_fields cycle dtStart period s).2.1
        · rw [if_neg he]
      exact (h2fields.2.2.1).trans hcd1
    · rw [if_neg hd]
      by_cases he : dtStart ≠ 0
      · rw [hs1, if_pos he]; exact (adjustStart_fields cycle dtStart period s).2.1
      · rw [hs1, if_neg he]
  refine ⟨?_, ?_, ?_⟩
  · intro c hcl
    rw [hmod]
    exact updateDurations_spec s2 cycle c (by omega) (by omega)
  · rw [hmod]
    show s2.cdur.set cycle (s2.cstop.getD 0 0 - s2.cstart.getD 0 0) = _
    rw [h2cdur, h2stop]
    rfl
  · intro hdstop hp
    rw [hmod]
    show getPend s2 cycle period ≤ s.cstop.getD cycle 0
    rw [hs2, if_pos hdstop]
    rw [← h1stop]
    exact adjustStop_clamped s1 cycle period dtStop (by omega)
      (by rw [h1rows cycle]; exact hp)

/-- C3 witness: the amended theorem applied to a one-cycle state with a
stop-time edit of period 0 by -10. -/
theorem C3_timing_invariants_witness :
    0 < (⟨[0], [100], [100], [[50, 100]], [[50, 50]]⟩ : CycParam).pend.length ∧
    (⟨[0], [100], [100], [[50, 100]], [[50, 50]]⟩ : CycParam).pend.length =
      (⟨[0], [100], [100], [[50, 100]], [[50, 50]]⟩ : CycParam).cstart.length ∧
    ((modifyPtiming ⟨[0], [100], [100], [[50, 100]], [[50, 50]]⟩ 0 0 0 (-10)).pdur.getD 0 [] =
        diffRow ((modifyPtiming ⟨[0], [100], [100], [[50, 100]], [[50, 50]]⟩ 0 0 0 (-10)).cstart.getD 0 0)
          ((modifyPtiming ⟨[0], [100], [100], [[50, 100]], [[50, 50]]⟩ 0 0 0 (-10)).pend.getD 0 []) ∧
      ((modifyPtiming ⟨[0], [100], [100], [[50, 100]], [[50, 50]]⟩ 0 0 0 (-10)).pdur.getD 0 []).sum =
        ((modifyPtiming ⟨[0], [100], [100], [[50, 100]], [[50, 50]]⟩ 0 0 0 (-10)).pend.getD 0 []).getLastD
          ((modifyPtiming ⟨[0], [100], [100], [[50, 100]], [[50, 50]]⟩ 0 0 0 (-10)).cstart.getD 0 0) -
        (modifyPtiming ⟨[0], [100], [100], [[50, 100]], [[50, 50]]⟩ 0 0 0 (-10)).cstart.getD 0 0) ∧
    (-10 : Int) ≠ 0 ∧
    getPend (modifyPtiming ⟨[0], [100], [100], [[50, 100]], [[50, 50]]⟩ 0 0 0 (-10)) 0 0 ≤
      (⟨[0], [100], [100], [[50, 100]], [[50, 50]]⟩ : CycParam).cstop.getD 0 0 :=
  ⟨by decide, by decide,
    (C3_timing_invariants_amended ⟨[0], [100], [100], [[50, 100]], [[50, 50]]⟩
      0 0 0 (-10) (by decide) (by decide)).1 0 (by decide),
    by decide,
    (C3_timing_invariants_amended ⟨[0], [100], [100], [[50, 100]], [[50, 50]]⟩
      0 0 0 (-10) (by decide) (by decide)).2.2 (by decide) (by decide)⟩

/-! ## C5: start-time edits and the zero-duration propagation -/

/-- C5 (amended): a start-time edit of period 0 shifts the cycle start and
leaves all period end times alone; a start-time edit of period `p >= 1`
never touches the cycle start and shifts the period end times at exactly
the indices `chainLo durs p .. p-1`: the walk through consecutive
zero-duration predecessors propagates the shift, but only while the
preceding period's index is positive (`period - 1 > 0`), so it never
reaches period index 0 and never reaches the cycle start. -/
theorem C5_start_edit_amended (s : CycParam) (cycle p : Nat) (dt : Int)
    (hdt : dt ≠ 0) (hc : cycle < s.pend.length) :
    ((modifyPtiming s cycle 0 dt 0).cstart =
        s.cstart.set cycle (s.cstart.getD cycle 0 + dt) ∧
      (modifyPtiming s cycle 0 dt 0).pend = s.pend) ∧
    (0 < p → p ≤ (s.pend.getD cycle []).length →
      (modifyPtiming s cycle p dt 0).cstart = s.cstart ∧
      ∀ j, getPend (modifyPtiming s cycle p dt 0) cycle j =
        if chainLo (s.pdur.getD cycle []) p ≤ j ∧ j < p
        then getPend s cycle j + dt else getPend s cycle j) := by
  have hz : ¬ ((0 : Int) ≠ 0) := fun h => h rfl
  have hmod : ∀ q : Nat, modifyPtiming s cycle q dt 0 =
      updateDurations (adjustStart cycle dt q s) cycle := by
    intro q
    have he : modifyPtiming s cycle q dt 0 =
        updateDurations (if (0 : Int) ≠ 0
          then adjustStop (if dt ≠ 0 then adjustStart cycle dt q s else s)
            cycle q 0
          else (if dt ≠ 0 then adjustStart cycle dt q s else s)) cycle := rfl
    rw [he, if_neg hz, if_pos hdt]
  constructor
  · rw [hmod 0]
    exact ⟨rfl, rfl⟩
  · intro hp0 hplen
    obtain ⟨hj, hcst⟩ := adjustStart_pend_chain cycle dt p s hp0 hc hplen
    rw [hmod p]
    exact ⟨hcst, fun j => hj j⟩

/-- C5 counterexample: in a cycle whose period 0 has zero duration, editing
period 1's start does not recurse onto period 0 (the source requires
`period - 1 > 0`), so the cycle start stays put, although the claim's
propagation rule would have shifted it (as a direct period-0 edit does). -/
theorem C5_start_edit_counterexample :
    getPdur ⟨[0], [100], [100], [[0, 50]], [[0, 50]]⟩ 0 0 = some 0 ∧
    (modifyPtiming ⟨[0], [100], [100], [[0, 50]], [[0, 50]]⟩ 0 1 5 0).cstart = [0] ∧
    (modifyPtiming ⟨[0], [100], [100], [[0, 50]], [[0, 50]]⟩ 0 0 5 0).cstart = [5] ∧
    ([0] : List Int) ≠ [5] := by
  decide

/-- C5 witness: the amended theorem applied to a four-period cycle where a
start edit of period 3 propagates through the zero-duration period 2 and
shifts the end of period 1 as well. -/
theorem C5_start_edit_witness :
    (7 : Int) ≠ 0 ∧
    0 < (⟨[0], [100], [100], [[10, 20, 20, 30]], [[10, 10, 0, 10]]⟩ : CycParam).pend.length ∧
    0 < 3 ∧
    3 ≤ ((⟨[0], [100], [100], [[10, 20, 20, 30]], [[10, 10, 0, 10]]⟩ : CycParam).pend.getD 0 []).length ∧
    getPend (modifyPtiming ⟨[0], [100], [100], [[10, 20, 20, 30]], [[10, 10, 0, 10]]⟩ 0 3 7 0) 0 2 =
      (if chainLo ((⟨[0], [100], [100], [[10, 20, 20, 30]], [[10, 10, 0, 10]]⟩ : CycParam).pdur.getD 0 []) 3 ≤ 2 ∧ 2 < 3
       then getPend ⟨[0], [100], [100], [[10, 20, 20, 30]], [[10, 10, 0, 10]]⟩ 0 2 + 7
       else getPend ⟨[0], [100], [100], [[10, 20, 20, 30]], [[10, 10, 0, 10]]⟩ 0 2) :=
  ⟨by decide, by decide, by decide, by decide,
    ((C5_start_edit_amended ⟨[0], [100], [100], [[10, 20, 20, 30]], [[10, 10, 0, 10]]⟩
      0 3 7 (by decide) (by decide)).2 (by decide) (by decide)).2 2⟩

/-! ## C4: matched-mode detection and its unmatched-timestamp checks -/

/-- C4: a fully matchable input (one He3 start 100, one Li6 start 103,
offset -3 within the tolerance of 20) is greedily matched completely, yet
`set_cycle_times` in matched mode raises `CycleError: Found no match to
Li6 cycles`: the Li6 unmatched check tests Li6 timestamps for membership
in `matchedhe3` instead of `matchedli6`, so it fires whenever a matched
pair has a nonzero offset. -/
theorem C4_matched_li6_check_bug :
    dropDuplicates [100] = [100] ∧
    dropDuplicates [103] = [103] ∧
    sortByAbsDiff (pairProduct [100] [103]) = [(100, 103)] ∧
    greedyMatch [(100, 103)] [] [] = .ok ([100], [103]) ∧
    |(100 : Int) - 103| ≤ 20 ∧
    (103 : Int) ∈ ([103] : List Int) ∧
    set_cycle_times_matched [100] [103] =
      .error "CycleError: Found no match to Li6 cycles" :=
  ⟨rfl, rfl, rfl, rfl, by decide, by decide, rfl⟩

/-! ## C6: single-source cycle boundary detection -/

/-- `getD` into the left part of an append. -/
theorem getD_append_left {α : Type} (l1 l2 : List α) (i : Nat) (d : α)
    (h : i < l1.length) : (l1 ++ l2).getD i d = l1.getD i d := by
  induction l1 generalizing i with
  | nil => simp at h
  | cons a t ih =>
    cases i with
    | zero => rfl
    | succ i => exact ih i (by simpa using h)

/-- `getD` at the position of a single appended element. -/
theorem getD_append_last {α : Type} (l : List α) (a d : α) :
    (l ++ [a]).getD l.length d = a := by
  induction l with
  | nil => rfl
  | cons b t ih => exact ih

/-- Index `i` of `np.concatenate((start[1:], [run_stop]))`, middle case. -/
theorem getD_shift (s : List Int) (rs : Int) (i : Nat) (h : i + 1 < s.length) :
    (s.drop 1 ++ [rs]).getD i 0 = s.getD (i + 1) 0 := by
  cases s with
  | nil => simp at h
  | cons x t =>
    show (t ++ [rs]).getD i 0 = t.getD i 0
    exact getD_append_left t [rs] i 0 (by simpa using h)

/-- Index `n - 1` of `np.concatenate((start[1:], [run_stop]))`. -/
theorem getD_shift_last (s : List Int) (rs : Int) (h : 0 < s.length) :
    (s.drop 1 ++ [rs]).getD (s.length - 1) 0 = rs := by
  cases s with
  | nil => simp at h
  | cons x t =>
    show (t ++ [rs]).getD t.length 0 = rs
    exact getD_append_last t rs 0

/-- C6: in single-source mode the cycle count equals the number of
deduplicated transition timestamps, each cycle start is the corresponding
deduplicated timestamp, each duration is the difference to the next start,
and the last duration is `run_stop` minus the last start, where `run_stop`
is the maximum observed timestamp over the slow-control trees. -/
theorem C6_single_source_cycle_times (starts : List Int)
    (trees : List (List Int)) (runStop : Int)
    (hrs : computeRunStop trees = some runStop) :
    (set_cycle_times_single starts runStop).length =
      (dropDuplicates starts).length ∧
    (∀ i, i < (dropDuplicates starts).length →
      ((set_cycle_times_single starts runStop).getD i (0, 0, 0)).1 =
        (dropDuplicates starts).getD i 0) ∧
    (∀ i, i + 1 < (dropDuplicates starts).length →
      ((set_cycle_times_single starts runStop).getD i (0, 0, 0)).2.2 =
        (dropDuplicates starts).getD (i + 1) 0 -
          (dropDuplicates starts).getD i 0) ∧
    (0 < (dropDuplicates starts).length →
      ((set_cycle_times_single starts runStop).getD
          ((dropDuplicates starts).length - 1) (0, 0, 0)).2.2 =
        runStop -
          (dropDuplicates starts).getD ((dropDuplicates starts).length - 1) 0) := by
  set s := dropDuplicates starts with hs
  have hct : set_cycle_times_single starts runStop =
      List.zipWith (fun a b => (a, b, b - a)) s
        (List.zipWith (fun a b => a + b) s
          (List.zipWith (fun a b => a - b) (s.drop 1 ++ [runStop]) s)) := by
    rw [hs]
    rfl
  have hshl : 0 < s.length → (s.drop 1 ++ [runStop]).length = s.length := by
    intro h
    simp only [List.length_append, List.length_drop, List.length_cons,
      List.length_nil]
    omega
  have hdl : (List.zipWith (fun a b : Int => a - b) (s.drop 1 ++ [runStop]) s).length
      = s.length := by
    simp only [List.length_zipWith, List.length_append, List.length_drop,
      List.length_cons, List.length_nil]
    omega
  have hsl : (List.zipWith (fun a b : Int => a + b) s
      (List.zipWith (fun a b : Int => a - b) (s.drop 1 ++ [runStop]) s)).length
      = s.length := by
    rw [List.length_zipWith, hdl]
    omega
  have hctlen : (set_cycle_times_single starts runStop).length = s.length := by
    rw [hct, List.length_zipWith, hsl]
    omega
  have hentry : ∀ i, i < s.length →
      (set_cycle_times_single starts runStop).getD i (0, 0, 0) =
        (s.getD i 0,
         s.getD i 0 + ((s.drop 1 ++ [runStop]).getD i 0 - s.getD i 0),
         s.getD i 0 + ((s.drop 1 ++ [runStop]).getD i 0 - s.getD i 0) -
           s.getD i 0) := by
    intro i hi
    rw [hct,
      getD_zipWith (fun a b => (a, b, b - a)) 0 0 (0, 0, 0) _ _ i hi
        (by rw [hsl]; exact hi),
      getD_zipWith (fun a b : Int => a + b) 0 0 0 _ _ i hi (by rw [hdl]; exact hi),
      getD_zipWith (fun a b : Int => a - b) 0 0 0 _ _ i
        (by rw [hshl (by omega)]; exact hi) hi]
  refine ⟨hctlen, ?_, ?_, ?_⟩
  · intro i hi
    rw [hentry i hi]
  · intro i hi
    rw [hentry i (by omega), getD_shift s runStop i hi]
    ring
  · intro hpos
    rw [hentry (s.length - 1) (by omega), getD_shift_last s runStop hpos]
    ring

/-- C6 witness: the theorem applied to a run with Li6 transition timestamps
`[10, 10, 40]` (two deduplicated cycle starts) and slow-control trees whose
last observed timestamp is 95. -/
theorem C6_single_source_cycle_times_witness :
    computeRunStop [[5, 95], [50]] = some 95 ∧
    (set_cycle_times_single [10, 10, 40] 95).length =
      (dropDuplicates [10, 10, 40]).length ∧
    0 + 1 < (dropDuplicates [10, 10, 40]).length ∧
    ((set_cycle_times_single [10, 10, 40] 95).getD 0 (0, 0, 0)).2.2 =
      (dropDuplicates [10, 10, 40]).getD (0 + 1) 0 -
        (dropDuplicates [10, 10, 40]).getD 0 0 ∧
    0 < (dropDuplicates [10, 10, 40]).length ∧
    ((set_cycle_times_single [10, 10, 40] 95).getD
        ((dropDuplicates [10, 10, 40]).length - 1) (0, 0, 0)).2.2 =
      95 - (dropDuplicates [10, 10, 40]).getD
        ((dropDuplicates [10, 10, 40]).length - 1) 0 :=
  ⟨rfl,
   (C6_single_source_cycle_times [10, 10, 40] [[5, 95], [50]] 95 rfl).1,
   by decide,
   (C6_single_source_cycle_times [10, 10, 40] [[5, 95], [50]] 95 rfl).2.2.1
     0 (by decide),
   by decide,
   (C6_single_source_cycle_times [10, 10, 40] [[5, 95], [50]] 95 rfl).2.2.2
     (by decide)⟩

/-! ## C7: merge conservation -/

/-- `getD` through a `map`, with any defaults, at an in-range index. -/
theorem getD_map' {α β : Type} (f : α → β) (l : List α) (i : Nat) (d : α)
    (db : β) (h : i < l.length) : (l.map f).getD i db = f (l.getD i d) := by
  rw [List.getD_eq_getElem _ _ (by simpa using h), List.getD_eq_getElem _ _ h,
    List.getElem_map]

/-- The error pre-treatment does not change the content column of any bin
fiber. -/
theorem content_sum_preSquared (X : List (Int × Int × ℚ)) (l : Int) :
    (((preSquared X).filter (fun r => r.1 = l)).map (fun r => r.2.1)).sum =
      ((X.filter (fun r => r.1 = l)).map (fun r => r.2.1)).sum := by
  induction X with
  | nil => rfl
  | cons x xs ih =>
    show ((((x.1, x.2.1, x.2.2 ^ 2) :: preSquared xs).filter
      (fun r => r.1 = l)).map (fun r => r.2.1)).sum = _
    by_cases hx : x.1 = l <;> simp [List.filter_cons, hx, ih]

/-- The error column of a bin fiber after pre-treatment is the squared
original error column. -/
theorem err_sum_preSquared (X : List (Int × Int × ℚ)) (l : Int) :
    (((preSquared X).filter (fun r => r.1 = l)).map (fun r => r.2.2)).sum =
      ((X.filter (fun r => r.1 = l)).map (fun r => r.2.2 ^ 2)).sum := by
  induction X with
  | nil => rfl
  | cons x xs ih =>
    show ((((x.1, x.2.1, x.2.2 ^ 2) :: preSquared xs).filter
      (fun r => r.1 = l)).map (fun r => r.2.2)).sum = _
    by_cases hx : x.1 = l <;> simp [List.filter_cons, hx, ih]

/-- The error pre-treatment does not change the content column at all. -/
theorem map_content_preSquared (X : List (Int × Int × ℚ)) :
    (preSquared X).map (fun r => r.2.1) = X.map (fun r => r.2.1) := by
  induction X with
  | nil => rfl
  | cons x xs ih => simp [preSquared, ih]

/-- The deduplication walk emits no duplicates, nothing already seen, and
everything unseen. -/
theorem dropDupAux_sound : ∀ (L seen : List Int),
    (dropDupAux L seen).Nodup ∧ (∀ x ∈ dropDupAux L seen, x ∉ seen) ∧
    (∀ x ∈ L, x ∉ seen → x ∈ dropDupAux L seen) := by
  intro L
  induction L with
  | nil => intro seen; exact ⟨List.nodup_nil, by simp [dropDupAux], by simp [dropDupAux]⟩
  | cons x xs ih =>
    intro seen
    by_cases hx : x ∈ seen
    · have he : dropDupAux (x :: xs) seen = dropDupAux xs seen := by
        simp [dropDupAux, hx]
      obtain ⟨h1, h2, h3⟩ := ih seen
      refine ⟨he ▸ h1, he ▸ h2, ?_⟩
      intro y hy hys
      rw [he]
      rcases List.mem_cons.mp hy with h | h
      · subst h; exact absurd hx hys
      · exact h3 y h hys
    · have he : dropDupAux (x :: xs) seen = x :: dropDupAux xs (x :: seen) := by
        simp [dropDupAux, hx]
      obtain ⟨h1, h2, h3⟩ := ih (x :: seen)
      refine ⟨?_, ?_, ?_⟩
      · rw [he]
        refine List.nodup_cons.mpr ⟨?_, h1⟩
        intro hmem
        exact h2 x hmem (List.mem_cons_self _ _)
      · rw [he]
        intro y hy hys
        rcases List.mem_cons.mp hy with h | h
        · subst h; exact hx hys
        · exact h2 y h (List.mem_cons_of_mem _ hys)
      · intro y hy hys
        rw [he]
        rcases List.mem_cons.mp hy with h | h
        · subst h; exact List.mem_cons_self _ _
        · by_cases hyx : y = x
          · subst hyx; exact List.mem_cons_self _ _
          · exact List.mem_cons_of_mem _
              (h3 y h (by simp [List.mem_cons, hyx, hys]))

/-- The group keys are distinct. -/
theorem groupLabels_nodup (rows : List (Int × Int × ℚ)) :
    (groupLabels rows).Nodup :=
  (List.perm_insertionSort _ _).nodup_iff.mpr (dropDupAux_sound _ []).1

/-- Every row's label is a group key. -/
theorem label_mem_groupLabels (rows : List (Int × Int × ℚ)) (x : Int)
    (hx : x ∈ rows.map (fun r => r.1)) : x ∈ groupLabels rows :=
  (List.perm_insertionSort _ _).mem_iff.mpr
    ((dropDupAux_sound _ []).2.2 x hx (by simp))

/-- One bin fiber of a cons. -/
theorem fiber_cons (r : Int × Int × ℚ) (rest : List (Int × Int × ℚ)) (l : Int) :
    (r :: rest).filter (fun q => q.1 = l) =
      if r.1 = l then r :: rest.filter (fun q => q.1 = l)
      else rest.filter (fun q => q.1 = l) := by
  by_cases h : r.1 = l <;> simp [List.filter_cons, h]

/-- Adding one row to the grouped sums adds its value exactly once, at its
own label. -/
theorem fiber_sum_cons {β : Type} [AddCommMonoid β] (v : Int × Int × ℚ → β)
    (r : Int × Int × ℚ) (rest : List (Int × Int × ℚ)) :
    ∀ (D : List Int), D.Nodup → r.1 ∈ D →
    (D.map (fun l => (((r :: rest).filter (fun q => q.1 = l)).map v).sum)).sum =
      v r +
        (D.map (fun l => ((rest.filter (fun q => q.1 = l)).map v).sum)).sum := by
  intro D
  induction D with
  | nil => intro _ hr; simp at hr
  | cons d ds ihD =>
    intro hD hr
    by_cases hrd : r.1 = d
    · have hnotin : r.1 ∉ ds := by
        rw [hrd]
        exact (List.nodup_cons.mp hD).1
      simp only [List.map_cons, List.sum_cons]
      rw [fiber_cons, if_pos hrd]
      simp only [List.map_cons, List.sum_cons]
      have hcongr :
          ds.map (fun l => (((r :: rest).filter (fun q => q.1 = l)).map v).sum)
            = ds.map (fun l => ((rest.filter (fun q => q.1 = l)).map v).sum) := by
        apply List.map_congr_left
        intro l hl
        rw [fiber_cons, if_neg (fun hrl => hnotin (by rw [hrl]; exact hl))]
      rw [hcongr, add_assoc]
    · have hr' : r.1 ∈ ds := by
        rcases List.mem_cons.mp hr with h | h
        · exact absurd h hrd
        · exact h
      simp only [List.map_cons, List.sum_cons]
      rw [fiber_cons, if_neg hrd, ihD (List.nodup_cons.mp hD).2 hr']
      rw [add_left_comm]

/-- Summing the per-label fiber sums over distinct labels covering every
row recovers the total. -/
theorem fiber_sum_partition {β : Type} [AddCommMonoid β]
    (v : Int × Int × ℚ → β) :
    ∀ (rows : List (Int × Int × ℚ)) (D : List Int), D.Nodup →
    (∀ r ∈ rows, r.1 ∈ D) →
    (D.map (fun l => ((rows.filter (fun q => q.1 = l)).map v).sum)).sum =
      (rows.map v).sum := by
  intro rows
  induction rows with
  | nil => intro D _ _; simp
  | cons r rest ih =>
    intro D hD hmem
    rw [fiber_sum_cons v r rest D hD (hmem r (List.mem_cons_self _ _)),
      ih D hD (fun q hq => hmem q (List.mem_cons_of_mem _ hq))]
    simp

/-- C7: merging two runs combines, per table kind, exactly as claimed: an
event-list table is row-concatenated in input order (lengths add); a 1-D
histogram table gets per-bin contents equal to the sums of the inputs'
per-bin contents, per-bin errors equal to the square root of the sum of
the squared input errors, metadata `sum`/`entries` summed, and total count
`n1 + n2`. -/
theorem C7_merge_conservation (h1 h2 : Th1) (t1 t2 : List (Int × Int)) :
    mergeTrees [t1, t2] = t1 ++ t2 ∧
    (mergeTrees [t1, t2]).length = t1.length + t2.length ∧
    (mergeTh1 [h1, h2]).sumAttr = h1.sumAttr + h2.sumAttr ∧
    (mergeTh1 [h1, h2]).entries = h1.entries + h2.entries ∧
    (∀ i, i < (mergeTh1 [h1, h2]).labels.length →
      (mergeTh1 [h1, h2]).counts.getD i 0 =
        binContent h1 ((mergeTh1 [h1, h2]).labels.getD i 0) +
          binContent h2 ((mergeTh1 [h1, h2]).labels.getD i 0) ∧
      (mergeTh1 [h1, h2]).errs.getD i 0 =
        Real.sqrt (((binErrSq h1 ((mergeTh1 [h1, h2]).labels.getD i 0) +
          binErrSq h2 ((mergeTh1 [h1, h2]).labels.getD i 0) : ℚ) : ℝ)) ∧
      0 ≤ (mergeTh1 [h1, h2]).errs.getD i 0 ∧
      ((mergeTh1 [h1, h2]).errs.getD i 0) ^ 2 =
        ((binErrSq h1 ((mergeTh1 [h1, h2]).labels.getD i 0) +
          binErrSq h2 ((mergeTh1 [h1, h2]).labels.getD i 0) : ℚ) : ℝ)) ∧
    (mergeTh1 [h1, h2]).counts.sum = totalCount h1 + totalCount h2 := by
  set rows := preSquared (([h1, h2].map Th1.rows).flatten) with hrows
  set keys := groupLabels rows with hkeys
  have hgs : groupSum rows = keys.map (fun l =>
      (l, ((rows.filter (fun r => r.1 = l)).map (fun r => r.2.1)).sum,
          ((rows.filter (fun r => r.1 = l)).map (fun r => r.2.2)).sum)) := rfl
  have hlab : (mergeTh1 [h1, h2]).labels =
      (groupSum rows).map (fun r => r.1) := rfl
  have hcnt : (mergeTh1 [h1, h2]).counts =
      (groupSum rows).map (fun r => r.2.1) := rfl
  have herr : (mergeTh1 [h1, h2]).errs =
      (groupSum rows).map (fun r => Real.sqrt ((r.2.2 : ℚ) : ℝ)) := rfl
  have hC : ∀ l, ((rows.filter (fun r => r.1 = l)).map (fun r => r.2.1)).sum =
      binContent h1 l + binContent h2 l := by
    intro l
    rw [hrows, content_sum_preSquared]
    show ((((h1.rows ++ (h2.rows ++ []): List (Int × Int × ℚ))).filter
      (fun r => r.1 = l)).map (fun r => r.2.1)).sum = _
    rw [List.append_nil, List.filter_append, List.map_append, List.sum_append]
    rfl
  have hE : ∀ l, ((rows.filter (fun r => r.1 = l)).map (fun r => r.2.2)).sum =
      binErrSq h1 l + binErrSq h2 l := by
    intro l
    rw [hrows, err_sum_preSquared]
    show ((((h1.rows ++ (h2.rows ++ []): List (Int × Int × ℚ))).filter
      (fun r => r.1 = l)).map (fun r => r.2.2 ^ 2)).sum = _
    rw [List.append_nil, List.filter_append, List.map_append, List.sum_append]
    rfl
  have hEnn : ∀ (h : Th1) (l : Int), 0 ≤ binErrSq h l := by
    intro h l
    apply List.sum_nonneg
    intro x hx
    simp only [List.mem_map] at hx
    obtain ⟨r, _, hr⟩ := hx
    rw [← hr]
    exact sq_nonneg _
  have hmt : mergeTrees [t1, t2] = t1 ++ t2 := by
    show List.flatten [t1, t2] = t1 ++ t2
    simp
  refine ⟨hmt, by rw [hmt, List.length_append],
    by show (List.map Th1.sumAttr [h1, h2]).sum = _; simp,
    by show (List.map Th1.entries [h1, h2]).sum = _; simp, ?_, ?_⟩
  · intro i hi
    have hklen : (mergeTh1 [h1, h2]).labels.length = keys.length := by
      rw [hlab, hgs, List.length_map, List.length_map]
    have hik : i < keys.length := by rw [← hklen]; exact hi
    have hlabi : (mergeTh1 [h1, h2]).labels.getD i 0 = keys.getD i 0 := by
      rw [hlab, hgs, List.map_map]
      exact getD_map' _ keys i 0 0 hik
    have hcnti : (mergeTh1 [h1, h2]).counts.getD i 0 =
        ((rows.filter (fun r => r.1 = keys.getD i 0)).map
          (fun r => r.2.1)).sum := by
      rw [hcnt, hgs, List.map_map]
      exact getD_map' _ keys i 0 0 hik
    have herri : (mergeTh1 [h1, h2]).errs.getD i 0 =
        Real.sqrt ((((rows.filter (fun r => r.1 = keys.getD i 0)).map
          (fun r => r.2.2)).sum : ℚ) : ℝ) := by
      rw [herr, hgs, List.map_map]
      exact getD_map' _ keys i 0 0 hik
    have hnn : (0 : ℝ) ≤ ((binErrSq h1 (keys.getD i 0) +
        binErrSq h2 (keys.getD i 0) : ℚ) : ℝ) := by
      rw [Rat.cast_nonneg]
      exact add_nonneg (hEnn h1 _) (hEnn h2 _)
    refine ⟨?_, ?_, ?_, ?_⟩
    · rw [hcnti, hC, hlabi]
    · rw [herri, hE, hlabi]
    · rw [herri]
      exact Real.sqrt_nonneg _
    · rw [herri, hE, hlabi]
      exact Real.sq_sqrt hnn
  · have hnodup : (dropDuplicates (rows.map (fun r => r.1))).Nodup :=
      (dropDupAux_sound _ []).1
    have hmem : ∀ r ∈ rows, r.1 ∈ dropDuplicates (rows.map (fun r => r.1)) := by
      intro r hr
      exact (dropDupAux_sound _ []).2.2 r.1
        (List.mem_map.mpr ⟨r, hr, rfl⟩) (by simp)
    have hperm : keys.Perm (dropDuplicates (rows.map (fun r => r.1))) := by
      rw [hkeys]
      exact List.perm_insertionSort _ _
    have hform : (mergeTh1 [h1, h2]).counts =
        keys.map (fun l => ((rows.filter (fun r => r.1 = l)).map
          (fun r => r.2.1)).sum) := by
      rw [hcnt, hgs, List.map_map]
      apply List.map_congr_left
      intro l _
      rfl
    rw [hform]
    calc (keys.map (fun l => ((rows.filter (fun r => r.1 = l)).map
          (fun r => r.2.1)).sum)).sum
        = ((dropDuplicates (rows.map (fun r => r.1))).map
            (fun l => ((rows.filter (fun r => r.1 = l)).map
              (fun r => r.2.1)).sum)).sum := (hperm.map _).sum_eq
      _ = (rows.map (fun r => r.2.1)).sum :=
          fiber_sum_partition (fun r => r.2.1) rows _ hnodup hmem
      _ = totalCount h1 + totalCount h2 := by
          rw [hrows, map_content_preSquared]
          show (((h1.rows ++ (h2.rows ++ []) : List (Int × Int × ℚ))).map
            (fun r => r.2.1)).sum = _
          rw [List.append_nil, List.map_append, List.sum_append]
          rfl

/-- C7 witness: the theorem applied to two one-bin histograms on the same
binning with contents 5 and 7 and errors 3 and 4. -/
theorem C7_merge_conservation_witness :
    0 < (mergeTh1 [⟨[(0, 5, 3)], 5, 5⟩, ⟨[(0, 7, 4)], 7, 7⟩]).labels.length ∧
    (mergeTh1 [⟨[(0, 5, 3)], 5, 5⟩, ⟨[(0, 7, 4)], 7, 7⟩]).counts.getD 0 0 =
      binContent ⟨[(0, 5, 3)], 5, 5⟩
          ((mergeTh1 [⟨[(0, 5, 3)], 5, 5⟩, ⟨[(0, 7, 4)], 7, 7⟩]).labels.getD 0 0) +
        binContent ⟨[(0, 7, 4)], 7, 7⟩
          ((mergeTh1 [⟨[(0, 5, 3)], 5, 5⟩, ⟨[(0, 7, 4)], 7, 7⟩]).labels.getD 0 0) ∧
    0 ≤ (mergeTh1 [⟨[(0, 5, 3)], 5, 5⟩, ⟨[(0, 7, 4)], 7, 7⟩]).errs.getD 0 0 ∧
    ((mergeTh1 [⟨[(0, 5, 3)], 5, 5⟩, ⟨[(0, 7, 4)], 7, 7⟩]).errs.getD 0 0) ^ 2 =
      ((binErrSq ⟨[(0, 5, 3)], 5, 5⟩
          ((mergeTh1 [⟨[(0, 5, 3)], 5, 5⟩, ⟨[(0, 7, 4)], 7, 7⟩]).labels.getD 0 0) +
        binErrSq ⟨[(0, 7, 4)], 7, 7⟩
          ((mergeTh1 [⟨[(0, 5, 3)], 5, 5⟩, ⟨[(0, 7, 4)], 7, 7⟩]).labels.getD 0 0) : ℚ) : ℝ) := by
  have h := (C7_merge_conservation ⟨[(0, 5, 3)], 5, 5⟩ ⟨[(0, 7, 4)], 7, 7⟩
    [] []).2.2.2.2.1 0 (by decide)
  exact ⟨by decide, h.1, h.2.2.1, h.2.2.2⟩

end Ucndata
